import Mathlib

/-!
Verification of the MazeSolver repository (`team_capivaras.py` plus its
Cython BFS extension).  The Python source is shallowly embedded here:
maze strings become `List Char`, the parser `parse_maze_for_cython`,
the renderer `draw_path_on_char_grid` / `maze_to_string` and the driver
`solve_maze` are translated function by function.  The compiled BFS
module `maze_solver_cy` is not part of the source tree, so the search
routine is modelled from the specification (queue-based breadth-first
search with predecessor reconstruction) and proved to satisfy the
shortest-path contract.
-/

namespace Maze

/-! ## Python string primitives -/

/-- The whitespace characters removed by Python's `str.strip()`
(restricted to the ASCII whitespace actually relevant to maze text). -/
def isPyWs (c : Char) : Bool :=
  c == ' ' || c == '\t' || c == '\n' || c == '\r' || c == '\x0b' || c == '\x0c'

/-- Python `s.strip()`: drop leading and trailing whitespace. -/
def pyStrip (s : List Char) : List Char :=
  ((s.dropWhile isPyWs).reverse.dropWhile isPyWs).reverse

/-- Python `s.split('\n')`: split on every newline, keeping empty pieces;
the result is always nonempty. -/
def splitNl : List Char → List (List Char)
  | [] => [[]]
  | c :: rest =>
    if c = '\n' then [] :: splitNl rest
    else
      match splitNl rest with
      | [] => [[c]]
      | l :: ls => (c :: l) :: ls

/-- Python `"\n".join(rows)`. -/
def joinNl : List (List Char) → List Char
  | [] => []
  | [l] => l
  | l :: rest => l ++ '\n' :: joinNl rest

/-! ## Parser (`parse_maze_for_cython`) -/

/-- The distinct `ValueError`s raised by `parse_maze_for_cython`.
`malformedGrid` carries the 1-based row number together with the expected
and the actual row length; `invalidCharacter` carries the offending
character and its (row, column) coordinate, exactly the data interpolated
into the corresponding Python messages. -/
inductive ParseError where
  | emptyInput : ParseError
  | noLines : ParseError
  | malformedGrid : Nat → Nat → Nat → ParseError
  | invalidCharacter : Char → Nat → Nat → ParseError
  | missingStart : ParseError
  | missingEnd : ParseError
deriving DecidableEq, Repr

/-- `CHAR_TO_INT` restricted to the success cases of the scan:
`'#'` becomes the wall value 1, everything else (`' '`, `'S'`, `'E'`)
the free-path value 0. -/
def intOfChar (c : Char) : Nat :=
  if c = '#' then 1 else 0

/-- The mutable locals `start_coords` / `end_coords` of the parsing loop. -/
structure ScanState where
  startCoord : Option (Nat × Nat)
  endCoord : Option (Nat × Nat)
deriving DecidableEq, Repr

/-- One row of the character-classification loop: starting at column `c`
of row `r`, record `'S'`/`'E'` coordinates (later occurrences overwrite
earlier ones), accept `'#'` and `' '`, and fail on anything else. -/
def scanChars (r : Nat) : Nat → ScanState → List Char → Except ParseError ScanState
  | _, st, [] => .ok st
  | c, st, ch :: rest =>
    if ch = 'S' then scanChars r (c + 1) { st with startCoord := some (r, c) } rest
    else if ch = 'E' then scanChars r (c + 1) { st with endCoord := some (r, c) } rest
    else if ch = '#' then scanChars r (c + 1) st rest
    else if ch = ' ' then scanChars r (c + 1) st rest
    else .error (.invalidCharacter ch r c)

/-- The outer row loop: each row's length is checked against `cols`
before its characters are classified. -/
def scanLines (cols : Nat) : Nat → ScanState → List (List Char) → Except ParseError ScanState
  | _, st, [] => .ok st
  | r, st, line :: rest =>
    if line.length ≠ cols then .error (.malformedGrid (r + 1) cols line.length)
    else
      match scanChars r 0 st line with
      | .error e => .error e
      | .ok st' => scanLines cols (r + 1) st' rest

/-- The tuple returned by `parse_maze_for_cython`: the character grid,
the integer grid handed to the Cython solver, and the recorded start and
end coordinates. -/
structure ParsedMaze where
  charGrid : List (List Char)
  intGrid : List (List Nat)
  startCoord : Nat × Nat
  endCoord : Nat × Nat
deriving DecidableEq, Repr

/-- `parse_maze_for_cython`: strip the input, reject blank input, split
into rows, scan every row (length check, then character classification),
and finally require that a start and an end marker were seen. -/
def parse_maze_for_cython (maze : List Char) : Except ParseError ParsedMaze :=
  let stripped := pyStrip maze
  if stripped = [] then .error .emptyInput
  else
    let lines := splitNl stripped
    if lines = [] then .error .noLines
    else
      let cols := (lines.headD []).length
      match scanLines cols 0 ⟨none, none⟩ lines with
      | .error e => .error e
      | .ok st =>
        match st.startCoord with
        | none => .error .missingStart
        | some s =>
          match st.endCoord with
          | none => .error .missingEnd
          | some e =>
            .ok ⟨lines, lines.map (fun l => l.map intOfChar), s, e⟩

/-! ## Renderer (`draw_path_on_char_grid`, `maze_to_string`) -/

/-- Assignment `grid[r][c] = v` on a list-of-lists grid (no-op out of
range, which never happens for the in-bounds paths produced by the
solver). -/
def setCell (g : List (List Char)) (r c : Nat) (v : Char) : List (List Char) :=
  g.set r ((g.getD r []).set c v)

/-- `draw_path_on_char_grid`: work on a copy of the grid and overwrite
every path cell that is not `'S'` or `'E'` with the marker `'·'`. -/
def draw_path_on_char_grid (charGrid : List (List Char)) (path : List (Nat × Nat)) :
    List (List Char) :=
  path.foldl
    (fun acc p =>
      let cur := (acc.getD p.1 []).getD p.2 ' '
      if cur ≠ 'S' ∧ cur ≠ 'E' then setCell acc p.1 p.2 '·' else acc)
    charGrid

/-- `maze_to_string`: join the rows with newlines. -/
def maze_to_string (grid : List (List Char)) : List Char :=
  joinNl grid

/-! ## Claim-side observations on raw maze strings -/

/-- Is `c` one of the four recognized maze symbols? -/
def validCharB (c : Char) : Bool :=
  c == 'S' || c == 'E' || c == '#' || c == ' '

/-- All positions of marker `ch` in row `r`, scanning from column `c`. -/
def rowPositionsFrom (ch : Char) (r : Nat) : Nat → List Char → List (Nat × Nat)
  | _, [] => []
  | c, x :: rest =>
    if x = ch then (r, c) :: rowPositionsFrom ch r (c + 1) rest
    else rowPositionsFrom ch r (c + 1) rest

/-- All positions of marker `ch` in the rows, in row-major scan order,
numbering rows from `r`. -/
def markerPositionsFrom (ch : Char) : Nat → List (List Char) → List (Nat × Nat)
  | _, [] => []
  | r, line :: rest => rowPositionsFrom ch r 0 line ++ markerPositionsFrom ch (r + 1) rest

/-- All positions of marker `ch` in the grid, in row-major scan order. -/
def markerPositions (ch : Char) (lines : List (List Char)) : List (Nat × Nat) :=
  markerPositionsFrom ch 0 lines

/-- All invalid characters of row `r` with their coordinates, scanning
from column `c`. -/
def rowInvalidsFrom (r : Nat) : Nat → List Char → List (Nat × Nat × Char)
  | _, [] => []
  | c, x :: rest =>
    if validCharB x then rowInvalidsFrom r (c + 1) rest
    else (r, c, x) :: rowInvalidsFrom r (c + 1) rest

/-- All invalid characters of the rows, in row-major scan order,
numbering rows from `r`. -/
def invalidPositionsFrom : Nat → List (List Char) → List (Nat × Nat × Char)
  | _, [] => []
  | r, line :: rest => rowInvalidsFrom r 0 line ++ invalidPositionsFrom (r + 1) rest

/-- All invalid characters of the grid, in row-major scan order. -/
def invalidPositions (lines : List (List Char)) : List (Nat × Nat × Char) :=
  invalidPositionsFrom 0 lines

/-- Does splitting the raw string on newlines produce rows of unequal
length? (The rectangularity premise of the spec, stated on the raw
input.) -/
def raggedB (s : List Char) : Bool :=
  let ls := splitNl s
  ls.any (fun l => l.length ≠ (ls.headD []).length)

/-- Does the raw string contain a character outside the maze alphabet at
some grid coordinate (i.e. in some row produced by splitting)? -/
def hasInvalidB (s : List Char) : Bool :=
  (splitNl s).any (fun l => l.any (fun c => ¬ validCharB c))

/-- Did parsing succeed? -/
def parseOkB (r : Except ParseError ParsedMaze) : Bool :=
  match r with
  | .ok _ => true
  | .error _ => false

/-- Did parsing fail with a `malformedGrid` error? -/
def parseMalformedB (r : Except ParseError ParsedMaze) : Bool :=
  match r with
  | .error (.malformedGrid _ _ _) => true
  | _ => false

/-- Did parsing fail with an `invalidCharacter` error? -/
def parseInvalidCharB (r : Except ParseError ParsedMaze) : Bool :=
  match r with
  | .error (.invalidCharacter _ _ _) => true
  | _ => false

/-- The last element of `l` if any, else the fallback `o`: the value of a
mutable coordinate variable after scanning the occurrence list `l`
starting from the old value `o`. -/
def lastOr (l : List (Nat × Nat)) (o : Option (Nat × Nat)) : Option (Nat × Nat) :=
  match l.getLast? with
  | some p => some p
  | none => o

/-! ## The grid graph -/

/-- A zero-indexed (row, column) pair. -/
abbrev Coord := Nat × Nat

/-- The integer grid cell at `p`, if `p` is in bounds. -/
def cellAt (g : List (List Nat)) (p : Coord) : Option Nat :=
  match g.get? p.1 with
  | none => none
  | some row => row.get? p.2

/-- A cell is traversable when it is in bounds and not the wall value 1
(start and end are stored as 0, hence always traversable). -/
def freeCell (g : List (List Nat)) (p : Coord) : Bool :=
  match cellAt g p with
  | none => false
  | some v => v != 1

/-- 4-directional grid adjacency of two coordinates. -/
def Adjacent (p q : Coord) : Prop :=
  (p.1 = q.1 ∧ (p.2 + 1 = q.2 ∨ q.2 + 1 = p.2)) ∨
  (p.2 = q.2 ∧ (p.1 + 1 = q.1 ∨ q.1 + 1 = p.1))

instance : DecidableRel Adjacent := fun p q =>
  inferInstanceAs (Decidable ((p.1 = q.1 ∧ (p.2 + 1 = q.2 ∨ q.2 + 1 = p.2)) ∨
    (p.2 = q.2 ∧ (p.1 + 1 = q.1 ∨ q.1 + 1 = p.1))))

/-- A traversable route from `s` to `e`: an ordered, nonempty sequence
of coordinates beginning at `s` and ending at `e`, consecutive entries
4-directionally adjacent, every entry traversable. -/
def ValidPath (g : List (List Nat)) (s e : Coord) (p : List Coord) : Prop :=
  p.head? = some s ∧ p.getLast? = some e ∧
  List.Chain' Adjacent p ∧ ∀ q ∈ p, freeCell g q = true

instance (g : List (List Nat)) (s e : Coord) (p : List Coord) :
    Decidable (ValidPath g s e p) :=
  inferInstanceAs (Decidable (p.head? = some s ∧ p.getLast? = some e ∧
    List.Chain' Adjacent p ∧ ∀ q ∈ p, freeCell g q = true))

/-- `e` can be reached from `s` through traversable cells. -/
def Reach (g : List (List Nat)) (s e : Coord) : Prop :=
  ∃ p, ValidPath g s e p

/-! ## Breadth-first search

The compiled extension `maze_solver_cy.find_shortest_path_cython_optimized`
is not part of the source tree.  Modelled from the spec: an unweighted
shortest-path search with a first-in-first-out frontier, fixed neighbor
order up/down/left/right, visited-on-enqueue, a predecessor record per
enqueued cell, early exit the moment the end cell is dequeued, silent
discarding of out-of-bounds neighbors, and path reconstruction that walks
predecessor links from the end back to the start and reverses; the empty
list signals "no path found". -/

/-- Candidate neighbors in the spec's order up, down, left, right;
a coordinate that would be negative is discarded. -/
def rawNbrs (p : Coord) : List Coord :=
  (if 0 < p.1 then [(p.1 - 1, p.2)] else []) ++ [(p.1 + 1, p.2)] ++
  (if 0 < p.2 then [(p.1, p.2 - 1)] else []) ++ [(p.1, p.2 + 1)]

/-- The search state: the FIFO frontier, the set of enqueued cells, and
the predecessor record. -/
structure BfsState where
  queue : List Coord
  visited : List Coord
  pred : List (Coord × Coord)

/-- Look up the recorded predecessor of `v`. -/
def predLookup : List (Coord × Coord) → Coord → Option Coord
  | [], _ => none
  | (k, u) :: rest, v => if k = v then some u else predLookup rest v

/-- Process the candidate neighbors of the dequeued cell `u` in order:
each traversable neighbor not yet enqueued is appended to the frontier,
marked visited, and has its predecessor recorded as `u`. -/
def enqueueNbrs (g : List (List Nat)) (u : Coord) :
    List Coord → BfsState → BfsState
  | [], st => st
  | v :: rest, st =>
    if freeCell g v = true ∧ v ∉ st.visited then
      enqueueNbrs g u rest ⟨st.queue ++ [v], v :: st.visited, (v, u) :: st.pred⟩
    else enqueueNbrs g u rest st

/-- The main search loop: dequeue the front cell; stop with the
predecessor record as soon as the end cell is dequeued; otherwise enqueue
its undiscovered traversable neighbors and continue.  `none` means the
frontier was exhausted (or the fuel ran out, which the correctness proof
rules out). -/
def bfsLoop (g : List (List Nat)) (e : Coord) : Nat → BfsState → Option (List (Coord × Coord))
  | 0, _ => none
  | fuel + 1, st =>
    match st.queue with
    | [] => none
    | u :: rest =>
      if u = e then some st.pred
      else bfsLoop g e fuel (enqueueNbrs g u (rawNbrs u) ⟨rest, st.visited, st.pred⟩)

/-- Walk the predecessor links from `v` back to `s`, collecting the
cells in end-to-start order. -/
def walkBack (pi : List (Coord × Coord)) (s : Coord) : Nat → Coord → Option (List Coord)
  | 0, _ => none
  | fuel + 1, v =>
    if v = s then some [s]
    else
      match predLookup pi v with
      | none => none
      | some u =>
        match walkBack pi s fuel u with
        | none => none
        | some p => some (v :: p)

/-- The total number of cells, which bounds the number of enqueues. -/
def gridSize (g : List (List Nat)) : Nat :=
  (g.map List.length).sum

/-- Modelled from the spec: the missing Cython routine
`find_shortest_path_cython_optimized`.  Runs the BFS loop from the start
cell and reconstructs the path by reversing the predecessor walk; the
empty list signals "no path found". -/
def find_shortest_path_cython_optimized (g : List (List Nat)) (s e : Coord) : List Coord :=
  match bfsLoop g e (gridSize g + 1) ⟨[s], [s], []⟩ with
  | none => []
  | some pi =>
    match walkBack pi s (gridSize g + 1) e with
    | none => []
    | some p => p.reverse

/-! ## Driver (`solve_maze`) -/

/-- Which of the three file-writing code paths of `solve_maze` ran:
a drawn solution, the "no path found" diagnostic, or the caught
parse `ValueError`. -/
inductive SolveBranch where
  | pathFound : List Coord → SolveBranch
  | noPath : SolveBranch
  | parseFailed : ParseError → SolveBranch
deriving Repr

/-- What a `solve_maze` call produces: the returned elapsed time in
milliseconds, the text written to the output file, and the branch tag. -/
structure SolveOutput where
  timeMs : ℚ
  fileContent : List Char
  branch : SolveBranch

/-- First line of the "no path found" diagnostic artifact. -/
def noPathMsg : List Char :=
  "Nenhum caminho encontrado no labirinto (Cython).\n".data

/-- Opening of the processing-time line of the diagnostic artifact. -/
def tempoHeader : List Char :=
  "(Tempo de processamento: ".data

/-- Closing of the processing-time line of the diagnostic artifact. -/
def tempoTail : List Char :=
  " ms)\n\n".data

/-- The diagnostic artifact written when no path was found: the message,
the elapsed processing time, and the original maze echoed for audit. -/
def noPathContent (msStr lab : List Char) : List Char :=
  noPathMsg ++ tempoHeader ++ msStr ++ tempoTail ++ lab

/-- Opening of the parse-error artifact. -/
def erroHeader : List Char :=
  "Erro ao processar o labirinto: ".data

/-- Opening of the elapsed-time line of the parse-error artifact. -/
def tempoErroHeader : List Char :=
  "\nTempo decorrido até o erro: ".data

/-- Closing of the elapsed-time line plus the echo header of the
parse-error artifact. -/
def erroTail : List Char :=
  " ms\n\nLabirinto fornecido:\n".data

/-- The artifact written when parsing raised a `ValueError`: the error,
the elapsed time, and the original maze.  The error's textual rendering
is abstracted by its `Repr` data. -/
def parseErrorContent (e : ParseError) (msStr lab : List Char) : List Char :=
  erroHeader ++ (reprStr e).data ++ tempoErroHeader ++ msStr ++ erroTail ++ lab

/-- `solve_maze`: parse, search, and render.  Wall-clock readings are
beyond the embedding, so the two `perf_counter()` samples enter as the
parameters `t0` (taken before parsing) and `t1` (taken when the elapsed
time is computed, in the success and in the error branch alike), and the
`"{:.4f}"` float formatting enters as the parameter `fmt`.  Every branch
returns the elapsed time `(t1 - t0) * 1000`; parse errors are caught,
never propagated. -/
def solve_maze (labyrinth : List Char) (t0 t1 : ℚ) (fmt : ℚ → List Char) : SolveOutput :=
  let ms := (t1 - t0) * 1000
  match parse_maze_for_cython labyrinth with
  | .ok pm =>
    let path := find_shortest_path_cython_optimized pm.intGrid pm.startCoord pm.endCoord
    if path ≠ [] then
      { timeMs := ms
        fileContent := maze_to_string (draw_path_on_char_grid pm.charGrid path)
        branch := .pathFound path }
    else
      { timeMs := ms
        fileContent := noPathContent (fmt ms) labyrinth
        branch := .noPath }
  | .error e =>
      { timeMs := ms
        fileContent := parseErrorContent e (fmt ms) labyrinth
        branch := .parseFailed e }

/-! ## Ground-truth shortest-path predicates -/

/-- `v` lies at graph distance exactly `n` edges from `s` in grid `g`:
some valid path with `n` edges reaches it and no valid path is shorter. -/
def distIs (g : List (List Nat)) (s v : Coord) (n : Nat) : Prop :=
  (∃ p, ValidPath g s v p ∧ p.length = n + 1) ∧
  ∀ p, ValidPath g s v p → n + 1 ≤ p.length

/-- The breadth-first-search loop invariant.  `k` is the current search
depth: the frontier holds cells at distances `k` and `k + 1` (in that
order), every cell at distance at most `k` has been discovered, every
discovered cell carries a predecessor chain realizing its exact graph
distance, and a fully processed cell has had all traversable neighbors
discovered and was not the end cell (the loop stops on dequeuing it). -/
structure BfsInv (g : List (List Nat)) (s e : Coord) (st : BfsState) (k : Nat) : Prop where
  start_mem : s ∈ st.visited
  queue_sub : ∀ v ∈ st.queue, v ∈ st.visited
  queue_nodup : st.queue.Nodup
  visited_nodup : st.visited.Nodup
  visited_free : ∀ v ∈ st.visited, freeCell g v = true
  visited_dist : ∀ v ∈ st.visited, ∃ n, distIs g s v n
  pred_start : predLookup st.pred s = none
  pred_ok : ∀ v ∈ st.visited, v ≠ s →
    ∃ u n, predLookup st.pred v = some u ∧ u ∈ st.visited ∧ Adjacent u v ∧
      distIs g s u n ∧ distIs g s v (n + 1)
  processed_not_end : ∀ u ∈ st.visited, u ∉ st.queue → u ≠ e
  processed_closed : ∀ u ∈ st.visited, u ∉ st.queue →
    ∀ v, Adjacent u v → freeCell g v = true → v ∈ st.visited
  queue_split : ∃ qa qb, st.queue = qa ++ qb ∧
    (∀ v ∈ qa, distIs g s v k) ∧ (∀ v ∈ qb, distIs g s v (k + 1))
  covered : ∀ w n, distIs g s w n → n ≤ k → w ∈ st.visited

/-! ## Concrete inputs used by the claim theorems and witnesses -/

/-- Ragged input whose first row holds an invalid character. -/
def mzRagged : List Char := "@\n##".toList

/-- The spec's malformed example: second row too long. -/
def mzMalformed : List Char := "#\n##".toList

/-- Two start markers, one end marker. -/
def mzDupMarkers : List Char := "SSE".toList

/-- No start marker at all. -/
def mzNoStart : List Char := "##".toList

/-- A start marker but no end marker. -/
def mzNoEnd : List Char := "S#".toList

/-- Duplicate start and end markers. -/
def mzDupBoth : List Char := "SS\nEE".toList

/-- A length mismatch in row 2 followed by an invalid character in row 3. -/
def mzPreempt : List Char := "##\n#\n@#".toList

/-- An invalid character in an otherwise rectangular maze. -/
def mzInvalidChar : List Char := "#@#\nS E".toList

/-- The smallest solvable maze. -/
def mzTiny : List Char := "SE".toList

/-- The parse of `mzTiny`. -/
def pmTiny : ParsedMaze := ⟨[['S', 'E']], [[0, 0]], (0, 0), (0, 1)⟩

/-- Start and end separated by a wall: no route. -/
def mzWall : List Char := "S#E".toList

/-- The parse of `mzWall`. -/
def pmWall : ParsedMaze := ⟨[['S', '#', 'E']], [[0, 1, 0]], (0, 0), (0, 2)⟩

/-- Start and end joined by one free cell. -/
def mzOpen : List Char := "S E".toList

/-- The parse of `mzOpen`. -/
def pmOpen : ParsedMaze := ⟨[['S', ' ', 'E']], [[0, 0, 0]], (0, 0), (0, 2)⟩

/-- A trivial stand-in for the float formatter in witnesses. -/
def fmtZero : ℚ → List Char := fun _ => []

/-! ## Lemmas about the string primitives -/

theorem splitNl_cons (c : Char) (rest : List Char) :
    splitNl (c :: rest) =
      if c = '\n' then [] :: splitNl rest
      else
        match splitNl rest with
        | [] => [[c]]
        | l :: ls => (c :: l) :: ls := by
  rfl

theorem splitNl_ne_nil (s : List Char) : splitNl s ≠ [] := by
  cases s with
  | nil => simp [splitNl]
  | cons c rest =>
    rw [splitNl_cons]
    by_cases h : c = '\n'
    · simp [h]
    · rw [if_neg h]
      cases splitNl rest <;> simp

theorem dropWhile_head_false {α} {p : α → Bool} :
    ∀ {l : List α} {x : α} {t : List α}, l.dropWhile p = x :: t → p x = false := by
  intro l
  induction l with
  | nil => intro x t h; simp [List.dropWhile] at h
  | cons a l ih =>
    intro x t h
    rw [List.dropWhile_cons] at h
    cases ha : p a with
    | true => rw [ha] at h; simp at h; exact ih h
    | false =>
      rw [ha] at h; simp at h
      obtain ⟨h1, _⟩ := h
      rw [← h1]; exact ha

theorem dropWhile_no_op {α} {p : α → Bool} {l : List α}
    (h : ∀ x, l.head? = some x → p x = false) : l.dropWhile p = l := by
  cases l with
  | nil => rfl
  | cons a t =>
    rw [List.dropWhile_cons, if_neg]
    simp [h a rfl]

theorem dropWhile_idem {α} {p : α → Bool} (l : List α) :
    (l.dropWhile p).dropWhile p = l.dropWhile p := by
  cases h : l.dropWhile p with
  | nil => rfl
  | cons x t =>
    apply dropWhile_no_op
    intro y hy
    simp at hy
    rw [← hy]
    exact dropWhile_head_false h

theorem dropWhile_getLast? {α} {p : α → Bool} :
    ∀ l : List α, l.dropWhile p ≠ [] → (l.dropWhile p).getLast? = l.getLast? := by
  intro l
  induction l with
  | nil => simp [List.dropWhile]
  | cons a t ih =>
    intro hne
    rw [List.dropWhile_cons] at hne ⊢
    cases ha : p a with
    | false => simp [ha] at hne ⊢
    | true =>
      rw [ha] at hne
      rw [if_pos rfl] at hne ⊢
      have htne : t ≠ [] := by
        intro h0
        rw [h0] at hne
        exact hne rfl
      rw [ih hne]
      cases t with
      | nil => exact absurd rfl htne
      | cons b t' => rfl

theorem pyStrip_idem (s : List Char) : pyStrip (pyStrip s) = pyStrip s := by
  unfold pyStrip
  have h1 : (((s.dropWhile isPyWs).reverse.dropWhile isPyWs).reverse).dropWhile isPyWs =
      ((s.dropWhile isPyWs).reverse.dropWhile isPyWs).reverse := by
    apply dropWhile_no_op
    intro x hx
    rw [List.head?_reverse] at hx
    have hBne : (s.dropWhile isPyWs).reverse.dropWhile isPyWs ≠ [] := by
      intro h0; rw [h0] at hx; simp at hx
    rw [dropWhile_getLast? _ hBne, List.getLast?_reverse] at hx
    cases hR : s.dropWhile isPyWs with
    | nil => rw [hR] at hx; simp at hx
    | cons y t =>
      rw [hR] at hx; simp at hx
      rw [← hx]
      exact dropWhile_head_false hR
  rw [h1, List.reverse_reverse, dropWhile_idem]

theorem parse_pyStrip (s : List Char) :
    parse_maze_for_cython (pyStrip s) = parse_maze_for_cython s := by
  unfold parse_maze_for_cython
  rw [pyStrip_idem]

theorem joinNl_splitNl : ∀ s : List Char, joinNl (splitNl s) = s := by
  intro s
  induction s with
  | nil => rfl
  | cons c rest ih =>
    by_cases h : c = '\n'
    · subst h
      have hs1 : splitNl ('\n' :: rest) = [] :: splitNl rest := by simp [splitNl]
      rw [hs1]
      cases hs : splitNl rest with
      | nil => exact absurd hs (splitNl_ne_nil rest)
      | cons l ls =>
        rw [hs] at ih
        simpa [joinNl] using ih
    · cases hs : splitNl rest with
      | nil => exact absurd hs (splitNl_ne_nil rest)
      | cons l ls =>
        have hs1 : splitNl (c :: rest) = (c :: l) :: ls := by
          rw [splitNl_cons, if_neg h, hs]
        rw [hs1]
        rw [hs] at ih
        cases ls with
        | nil =>
          simp only [joinNl] at ih ⊢
          rw [ih]
        | cons l2 ls2 =>
          simp only [joinNl] at ih ⊢
          rw [List.cons_append, ih]

theorem newline_not_mem_splitNl :
    ∀ s : List Char, ∀ l ∈ splitNl s, '\n' ∉ l := by
  intro s
  induction s with
  | nil =>
    intro l hl
    simp [splitNl] at hl
    simp [hl]
  | cons c rest ih =>
    intro l hl
    by_cases h : c = '\n'
    · subst h
      have heq : splitNl ('\n' :: rest) = [] :: splitNl rest := by simp [splitNl]
      rw [heq] at hl
      rcases List.mem_cons.mp hl with hl1 | hl1
      · simp [hl1]
      · exact ih l hl1
    · cases hs : splitNl rest with
      | nil => exact absurd hs (splitNl_ne_nil rest)
      | cons l1 ls =>
        have hs1 : splitNl (c :: rest) = (c :: l1) :: ls := by
          rw [splitNl_cons, if_neg h, hs]
        rw [hs1] at hl
        rcases List.mem_cons.mp hl with hl1 | hl1
        · subst hl1
          intro hmem
          rcases List.mem_cons.mp hmem with hm | hm
          · exact h hm.symm
          · exact ih l1 (by rw [hs]; exact List.mem_cons_self _ _) hm
        · exact ih l (by rw [hs]; exact List.mem_cons_of_mem _ hl1)

theorem splitNl_no_newline {l : List Char} (h : '\n' ∉ l) : splitNl l = [l] := by
  induction l with
  | nil => rfl
  | cons c t ih =>
    have hc : c ≠ '\n' := fun hc => h (by rw [hc]; exact List.mem_cons_self _ _)
    have ht : splitNl t = [t] := ih (fun hm => h (List.mem_cons_of_mem _ hm))
    rw [splitNl_cons, if_neg hc, ht]

theorem splitNl_append_newline {l t : List Char} (h : '\n' ∉ l) :
    splitNl (l ++ '\n' :: t) = l :: splitNl t := by
  induction l with
  | nil => simp [splitNl]
  | cons c l' ih =>
    have hc : c ≠ '\n' := fun hc => h (by rw [hc]; exact List.mem_cons_self _ _)
    have hl' : splitNl (l' ++ '\n' :: t) = l' :: splitNl t :=
      ih (fun hm => h (List.mem_cons_of_mem _ hm))
    show splitNl (c :: (l' ++ '\n' :: t)) = (c :: l') :: splitNl t
    rw [splitNl_cons, if_neg hc, hl']

theorem splitNl_joinNl :
    ∀ ls : List (List Char), ls ≠ [] → (∀ l ∈ ls, '\n' ∉ l) →
      splitNl (joinNl ls) = ls := by
  intro ls
  induction ls with
  | nil => intro h; exact absurd rfl h
  | cons l rest ih =>
    intro _ hnl
    cases rest with
    | nil =>
      show splitNl (joinNl [l]) = [l]
      simp only [joinNl]
      exact splitNl_no_newline (hnl l (List.mem_cons_self _ _))
    | cons l2 rest2 =>
      show splitNl (l ++ '\n' :: joinNl (l2 :: rest2)) = l :: l2 :: rest2
      rw [splitNl_append_newline (hnl l (List.mem_cons_self _ _))]
      rw [ih (by simp) (fun x hx => hnl x (List.mem_cons_of_mem _ hx))]

/-! ## Lemmas about the scanning loops -/

theorem lastOr_nil (o : Option (Nat × Nat)) : lastOr [] o = o := rfl

theorem lastOr_cons (x : Nat × Nat) (l : List (Nat × Nat)) (o : Option (Nat × Nat)) :
    lastOr (x :: l) o = lastOr l (some x) := by
  unfold lastOr
  cases l with
  | nil => rfl
  | cons y t =>
    rw [List.getLast?_cons_cons]
    cases h : (y :: t).getLast? with
    | none => simp [List.getLast?_eq_none_iff] at h
    | some p => rfl

theorem lastOr_append (a b : List (Nat × Nat)) (o : Option (Nat × Nat)) :
    lastOr (a ++ b) o = lastOr b (lastOr a o) := by
  cases b with
  | nil => simp [lastOr]
  | cons y t =>
    unfold lastOr
    rw [List.getLast?_append_of_ne_nil a (by simp)]
    cases h : (y :: t).getLast? with
    | none => simp [List.getLast?_eq_none_iff] at h
    | some p => rfl

theorem rowPositionsFrom_cons (ch x : Char) (r c : Nat) (rest : List Char) :
    rowPositionsFrom ch r c (x :: rest) =
      if x = ch then (r, c) :: rowPositionsFrom ch r (c + 1) rest
      else rowPositionsFrom ch r (c + 1) rest := by
  rfl

theorem scanChars_clean :
    ∀ (line : List Char) (r c : Nat) (st : ScanState),
      (∀ ch ∈ line, validCharB ch = true) →
      scanChars r c st line =
        .ok ⟨lastOr (rowPositionsFrom 'S' r c line) st.startCoord,
             lastOr (rowPositionsFrom 'E' r c line) st.endCoord⟩ := by
  intro line
  induction line with
  | nil => intro r c st _; rfl
  | cons ch rest ih =>
    intro r c st hval
    have hch := hval ch (List.mem_cons_self _ _)
    have hrest : ∀ x ∈ rest, validCharB x = true :=
      fun x hx => hval x (List.mem_cons_of_mem _ hx)
    by_cases hS : ch = 'S'
    · subst hS
      show scanChars r (c + 1) { st with startCoord := some (r, c) } rest = _
      rw [ih r (c + 1) _ hrest]
      rw [rowPositionsFrom_cons, rowPositionsFrom_cons, if_pos rfl,
        if_neg (by decide), lastOr_cons]
    · by_cases hE : ch = 'E'
      · subst hE
        show scanChars r (c + 1) { st with endCoord := some (r, c) } rest = _
        rw [ih r (c + 1) _ hrest]
        rw [rowPositionsFrom_cons, rowPositionsFrom_cons, if_pos rfl,
          if_neg (by decide), lastOr_cons]
      · have hskip : rowPositionsFrom 'S' r c (ch :: rest) =
            rowPositionsFrom 'S' r (c + 1) rest := by
          rw [rowPositionsFrom_cons, if_neg hS]
        have hskipE : rowPositionsFrom 'E' r c (ch :: rest) =
            rowPositionsFrom 'E' r (c + 1) rest := by
          rw [rowPositionsFrom_cons, if_neg hE]
        by_cases hH : ch = '#'
        · subst hH
          show scanChars r (c + 1) st rest = _
          rw [ih r (c + 1) st hrest, hskip, hskipE]
        · by_cases hSp : ch = ' '
          · subst hSp
            show scanChars r (c + 1) st rest = _
            rw [ih r (c + 1) st hrest, hskip, hskipE]
          · exfalso
            simp [validCharB, hS, hE, hH, hSp] at hch

theorem scanLines_clean :
    ∀ (ls : List (List Char)) (cols r : Nat) (st : ScanState),
      (∀ l ∈ ls, l.length = cols) →
      (∀ l ∈ ls, ∀ ch ∈ l, validCharB ch = true) →
      scanLines cols r st ls =
        .ok ⟨lastOr (markerPositionsFrom 'S' r ls) st.startCoord,
             lastOr (markerPositionsFrom 'E' r ls) st.endCoord⟩ := by
  intro ls
  induction ls with
  | nil => intro cols r st _ _; rfl
  | cons line rest ih =>
    intro cols r st hlen hval
    have hline : line.length = cols := hlen line (List.mem_cons_self _ _)
    show (if line.length ≠ cols then _ else _) = _
    rw [if_neg (by rw [hline]; exact fun h => h rfl)]
    rw [scanChars_clean line r 0 st (hval line (List.mem_cons_self _ _))]
    show scanLines cols (r + 1) _ rest = _
    rw [ih cols (r + 1) _ (fun l hl => hlen l (List.mem_cons_of_mem _ hl))
      (fun l hl => hval l (List.mem_cons_of_mem _ hl))]
    show Except.ok _ = Except.ok (⟨_, _⟩ : ScanState)
    have hm : markerPositionsFrom 'S' r (line :: rest) =
        rowPositionsFrom 'S' r 0 line ++ markerPositionsFrom 'S' (r + 1) rest := rfl
    have hmE : markerPositionsFrom 'E' r (line :: rest) =
        rowPositionsFrom 'E' r 0 line ++ markerPositionsFrom 'E' (r + 1) rest := rfl
    rw [hm, hmE, lastOr_append, lastOr_append]

theorem scanChars_cons (r c : Nat) (st : ScanState) (ch : Char) (rest : List Char) :
    scanChars r c st (ch :: rest) =
      if ch = 'S' then scanChars r (c + 1) { st with startCoord := some (r, c) } rest
      else if ch = 'E' then scanChars r (c + 1) { st with endCoord := some (r, c) } rest
      else if ch = '#' then scanChars r (c + 1) st rest
      else if ch = ' ' then scanChars r (c + 1) st rest
      else .error (.invalidCharacter ch r c) := by
  rfl

theorem scanLines_cons (cols r : Nat) (st : ScanState) (line : List Char)
    (rest : List (List Char)) :
    scanLines cols r st (line :: rest) =
      if line.length ≠ cols then .error (.malformedGrid (r + 1) cols line.length)
      else
        match scanChars r 0 st line with
        | .error e => .error e
        | .ok st' => scanLines cols (r + 1) st' rest := by
  rfl

theorem lastOr_none (l : List (Nat × Nat)) : lastOr l none = l.getLast? := by
  unfold lastOr
  cases l.getLast? <;> rfl

/-- On blank-free, rectangular, alphabet-clean input the parser is fully
determined by the last-seen positions of the two markers. -/
theorem parse_clean (s : List Char) (hne : pyStrip s ≠ [])
    (hrect : ∀ l ∈ splitNl (pyStrip s),
      l.length = ((splitNl (pyStrip s)).headD []).length)
    (hval : ∀ l ∈ splitNl (pyStrip s), ∀ ch ∈ l, validCharB ch = true) :
    parse_maze_for_cython s =
      match (markerPositions 'S' (splitNl (pyStrip s))).getLast? with
      | none => .error .missingStart
      | some sc =>
        match (markerPositions 'E' (splitNl (pyStrip s))).getLast? with
        | none => .error .missingEnd
        | some ec =>
          .ok ⟨splitNl (pyStrip s),
               (splitNl (pyStrip s)).map (fun l => l.map intOfChar), sc, ec⟩ := by
  simp only [parse_maze_for_cython]
  rw [if_neg hne, if_neg (splitNl_ne_nil _)]
  rw [scanLines_clean _ _ 0 ⟨none, none⟩ hrect hval]
  show (match (⟨_, _⟩ : ScanState).startCoord with
    | none => _ | some sc => _) = _
  rw [lastOr_none, lastOr_none]
  rfl

/-- Inversion of a successful parse: the components of the result and
the successful inner scan. -/
theorem parse_ok_inv {s : List Char} {pm : ParsedMaze}
    (h : parse_maze_for_cython s = .ok pm) :
    pyStrip s ≠ [] ∧
    pm.charGrid = splitNl (pyStrip s) ∧
    pm.intGrid = (splitNl (pyStrip s)).map (fun l => l.map intOfChar) ∧
    ∃ st : ScanState,
      scanLines ((splitNl (pyStrip s)).headD []).length 0 ⟨none, none⟩
        (splitNl (pyStrip s)) = .ok st ∧
      st.startCoord = some pm.startCoord ∧
      st.endCoord = some pm.endCoord := by
  simp only [parse_maze_for_cython] at h
  split at h
  · exact absurd h (by simp)
  · split at h
    · exact absurd h (by simp)
    · rename_i h1 _
      split at h
      · exact absurd h (by simp)
      · rename_i st heq
        split at h
        · exact absurd h (by simp)
        · rename_i sc hst
          split at h
          · exact absurd h (by simp)
          · rename_i ec hen
            injection h with h2
            refine ⟨h1, ?_, ?_, st, heq, ?_, ?_⟩
            · rw [← h2]
            · rw [← h2]
            · rw [← h2]; exact hst
            · rw [← h2]; exact hen

theorem scanLines_ok_lengths :
    ∀ (ls : List (List Char)) (cols r : Nat) (st st' : ScanState),
      scanLines cols r st ls = .ok st' → ∀ l ∈ ls, l.length = cols := by
  intro ls
  induction ls with
  | nil =>
    intro _ _ _ _ _ l hl
    simp at hl
  | cons line rest ih =>
    intro cols r st st' h l hl
    rw [scanLines_cons] at h
    by_cases hlen : line.length = cols
    · rcases List.mem_cons.mp hl with hl1 | hl1
      · rw [hl1]; exact hlen
      · rw [if_neg (by rw [hlen]; exact fun hc => hc rfl)] at h
        cases hsc : scanChars r 0 st line with
        | error e => rw [hsc] at h; exact absurd h (by simp)
        | ok st2 =>
          rw [hsc] at h
          exact ih cols (r + 1) st2 st' h l hl1
    · rw [if_pos hlen] at h
      exact absurd h (by simp)

theorem scanChars_ok_valid :
    ∀ (line : List Char) (r c : Nat) (st st' : ScanState),
      scanChars r c st line = .ok st' → ∀ ch ∈ line, validCharB ch = true := by
  intro line
  induction line with
  | nil =>
    intro _ _ _ _ _ ch hch
    simp at hch
  | cons x rest ih =>
    intro r c st st' h ch hch
    rw [scanChars_cons] at h
    rcases List.mem_cons.mp hch with hch1 | hch1
    · subst hch1
      by_cases hS : ch = 'S'
      · simp [validCharB, hS]
      · by_cases hE : ch = 'E'
        · simp [validCharB, hE]
        · by_cases hH : ch = '#'
          · simp [validCharB, hH]
          · by_cases hSp : ch = ' '
            · simp [validCharB, hSp]
            · rw [if_neg hS, if_neg hE, if_neg hH, if_neg hSp] at h
              exact absurd h (by simp)
    · by_cases hS : x = 'S'
      · rw [if_pos hS] at h; exact ih r (c + 1) _ st' h ch hch1
      · rw [if_neg hS] at h
        by_cases hE : x = 'E'
        · rw [if_pos hE] at h; exact ih r (c + 1) _ st' h ch hch1
        · rw [if_neg hE] at h
          by_cases hH : x = '#'
          · rw [if_pos hH] at h; exact ih r (c + 1) _ st' h ch hch1
          · rw [if_neg hH] at h
            by_cases hSp : x = ' '
            · rw [if_pos hSp] at h; exact ih r (c + 1) _ st' h ch hch1
            · rw [if_neg hSp] at h; exact absurd h (by simp)

theorem scanLines_ok_valid :
    ∀ (ls : List (List Char)) (cols r : Nat) (st st' : ScanState),
      scanLines cols r st ls = .ok st' →
      ∀ l ∈ ls, ∀ ch ∈ l, validCharB ch = true := by
  intro ls
  induction ls with
  | nil =>
    intro _ _ _ _ _ l hl
    simp at hl
  | cons line rest ih =>
    intro cols r st st' h l hl
    rw [scanLines_cons] at h
    by_cases hlen : line.length ≠ cols
    · rw [if_pos hlen] at h; exact absurd h (by simp)
    · rw [if_neg hlen] at h
      cases hsc : scanChars r 0 st line with
      | error e => rw [hsc] at h; exact absurd h (by simp)
      | ok st2 =>
        rw [hsc] at h
        rcases List.mem_cons.mp hl with hl1 | hl1
        · rw [hl1]; exact scanChars_ok_valid line r 0 st st2 hsc
        · exact ih cols (r + 1) st2 st' h l hl1

/-! ## Row-major semantics of the marker-position lists -/

theorem getLast?_some_mem {α} : ∀ {l : List α} {a : α}, l.getLast? = some a → a ∈ l := by
  intro l
  induction l with
  | nil => intro a h; simp at h
  | cons x t ih =>
    intro a h
    cases t with
    | nil =>
      simp at h
      simp [h]
    | cons y t' =>
      rw [List.getLast?_cons_cons] at h
      exact List.mem_cons_of_mem _ (ih h)

theorem rowPositionsFrom_sem (ch : Char) :
    ∀ (line : List Char) (r c : Nat) (p : Nat × Nat),
      p ∈ rowPositionsFrom ch r c line →
      p.1 = r ∧ c ≤ p.2 ∧ line.get? (p.2 - c) = some ch := by
  intro line
  induction line with
  | nil =>
    intro r c p hp
    simp [rowPositionsFrom] at hp
  | cons x rest ih =>
    intro r c p hp
    rw [rowPositionsFrom_cons] at hp
    by_cases hx : x = ch
    · rw [if_pos hx] at hp
      rcases List.mem_cons.mp hp with hp1 | hp1
      · subst hp1
        exact ⟨rfl, le_refl c, by simp [hx]⟩
      · obtain ⟨h1, h2, h3⟩ := ih r (c + 1) p hp1
        refine ⟨h1, le_trans (Nat.le_succ c) h2, ?_⟩
        have : p.2 - c = (p.2 - (c + 1)) + 1 := by omega
        rw [this, List.get?_cons_succ]
        exact h3
    · rw [if_neg hx] at hp
      obtain ⟨h1, h2, h3⟩ := ih r (c + 1) p hp
      refine ⟨h1, le_trans (Nat.le_succ c) h2, ?_⟩
      have : p.2 - c = (p.2 - (c + 1)) + 1 := by omega
      rw [this, List.get?_cons_succ]
      exact h3

theorem markerPositionsFrom_sem (ch : Char) :
    ∀ (ls : List (List Char)) (r : Nat) (p : Nat × Nat),
      p ∈ markerPositionsFrom ch r ls →
      r ≤ p.1 ∧ (ls.getD (p.1 - r) []).get? p.2 = some ch := by
  intro ls
  induction ls with
  | nil =>
    intro r p hp
    simp [markerPositionsFrom] at hp
  | cons line rest ih =>
    intro r p hp
    rcases List.mem_append.mp hp with hp1 | hp1
    · obtain ⟨h1, _, h3⟩ := rowPositionsFrom_sem ch line r 0 p hp1
      subst h1
      simp at h3 ⊢
      exact h3
    · obtain ⟨h1, h2⟩ := ih (r + 1) p hp1
      refine ⟨le_trans (Nat.le_succ r) h1, ?_⟩
      have hd : p.1 - r = (p.1 - (r + 1)) + 1 := by omega
      rw [hd]
      simpa using h2

theorem rowPositionsFrom_eq_nil_iff (ch : Char) :
    ∀ (line : List Char) (r c : Nat),
      rowPositionsFrom ch r c line = [] ↔ ch ∉ line := by
  intro line
  induction line with
  | nil => intro r c; simp [rowPositionsFrom]
  | cons x rest ih =>
    intro r c
    rw [rowPositionsFrom_cons]
    by_cases hx : x = ch
    · rw [if_pos hx]
      simp [hx]
    · rw [if_neg hx]
      rw [ih r (c + 1)]
      constructor
      · intro h hmem
        rcases List.mem_cons.mp hmem with h1 | h1
        · exact hx h1.symm
        · exact h h1
      · intro h hmem
        exact h (List.mem_cons_of_mem _ hmem)

theorem markerPositionsFrom_eq_nil_iff (ch : Char) :
    ∀ (ls : List (List Char)) (r : Nat),
      markerPositionsFrom ch r ls = [] ↔ ∀ l ∈ ls, ch ∉ l := by
  intro ls
  induction ls with
  | nil => intro r; simp [markerPositionsFrom]
  | cons line rest ih =>
    intro r
    show rowPositionsFrom ch r 0 line ++ markerPositionsFrom ch (r + 1) rest = [] ↔ _
    rw [List.append_eq_nil]
    rw [rowPositionsFrom_eq_nil_iff, ih (r + 1)]
    constructor
    · rintro ⟨h1, h2⟩ l hl
      rcases List.mem_cons.mp hl with hl1 | hl1
      · rw [hl1]; exact h1
      · exact h2 l hl1
    · intro h
      exact ⟨h line (List.mem_cons_self _ _),
        fun l hl => h l (List.mem_cons_of_mem _ hl)⟩

/-! ## Error paths of the scan -/

theorem validCharB_iff (x : Char) :
    validCharB x = true ↔ x = 'S' ∨ x = 'E' ∨ x = '#' ∨ x = ' ' := by
  simp [validCharB, or_assoc]

theorem rowInvalidsFrom_cons (r c : Nat) (x : Char) (rest : List Char) :
    rowInvalidsFrom r c (x :: rest) =
      if validCharB x then rowInvalidsFrom r (c + 1) rest
      else (r, c, x) :: rowInvalidsFrom r (c + 1) rest := by
  rfl

theorem rowInvalidsFrom_eq_nil_iff :
    ∀ (line : List Char) (r c : Nat),
      rowInvalidsFrom r c line = [] ↔ ∀ x ∈ line, validCharB x = true := by
  intro line
  induction line with
  | nil => intro r c; simp [rowInvalidsFrom]
  | cons x rest ih =>
    intro r c
    rw [rowInvalidsFrom_cons]
    by_cases hx : validCharB x = true
    · rw [if_pos hx, ih r (c + 1)]
      constructor
      · intro h y hy
        rcases List.mem_cons.mp hy with h1 | h1
        · rw [h1]; exact hx
        · exact h y h1
      · intro h y hy
        exact h y (List.mem_cons_of_mem _ hy)
    · rw [if_neg hx]
      constructor
      · intro h; exact absurd h (by simp)
      · intro h
        exact absurd (h x (List.mem_cons_self _ _)) hx

theorem rowInvalidsFrom_fst :
    ∀ (line : List Char) (r c : Nat) (p : Nat × Nat × Char),
      p ∈ rowInvalidsFrom r c line → p.1 = r := by
  intro line
  induction line with
  | nil => intro r c p hp; simp [rowInvalidsFrom] at hp
  | cons x rest ih =>
    intro r c p hp
    rw [rowInvalidsFrom_cons] at hp
    by_cases hx : validCharB x = true
    · rw [if_pos hx] at hp
      exact ih r (c + 1) p hp
    · rw [if_neg hx] at hp
      rcases List.mem_cons.mp hp with h1 | h1
      · rw [h1]
      · exact ih r (c + 1) p h1

theorem scanChars_invalid :
    ∀ (line : List Char) (r c c0 : Nat) (ch : Char) (st : ScanState)
      (tail : List (Nat × Nat × Char)),
      rowInvalidsFrom r c line = (r, c0, ch) :: tail →
      scanChars r c st line = .error (.invalidCharacter ch r c0) := by
  intro line
  induction line with
  | nil =>
    intro r c c0 ch st tail h
    simp [rowInvalidsFrom] at h
  | cons x rest ih =>
    intro r c c0 ch st tail h
    rw [rowInvalidsFrom_cons] at h
    rw [scanChars_cons]
    by_cases hv : validCharB x = true
    · rw [if_pos hv] at h
      rcases (validCharB_iff x).mp hv with h1 | h1 | h1 | h1
      · rw [if_pos h1]; exact ih r (c + 1) c0 ch _ tail h
      · have hS : ¬ x = 'S' := by rw [h1]; decide
        rw [if_neg hS, if_pos h1]
        exact ih r (c + 1) c0 ch _ tail h
      · have hS : ¬ x = 'S' := by rw [h1]; decide
        have hE : ¬ x = 'E' := by rw [h1]; decide
        rw [if_neg hS, if_neg hE, if_pos h1]
        exact ih r (c + 1) c0 ch st tail h
      · have hS : ¬ x = 'S' := by rw [h1]; decide
        have hE : ¬ x = 'E' := by rw [h1]; decide
        have hH : ¬ x = '#' := by rw [h1]; decide
        rw [if_neg hS, if_neg hE, if_neg hH, if_pos h1]
        exact ih r (c + 1) c0 ch st tail h
    · rw [if_neg hv] at h
      have hS : ¬ x = 'S' := fun h1 => hv (by simp [validCharB, h1])
      have hE : ¬ x = 'E' := fun h1 => hv (by simp [validCharB, h1])
      have hH : ¬ x = '#' := fun h1 => hv (by simp [validCharB, h1])
      have hSp : ¬ x = ' ' := fun h1 => hv (by simp [validCharB, h1])
      rw [if_neg hS, if_neg hE, if_neg hH, if_neg hSp]
      injection h with h1 _
      rw [Prod.mk.injEq, Prod.mk.injEq] at h1
      obtain ⟨_, hc, hx⟩ := h1
      rw [hc, hx]

theorem scanLines_malformed :
    ∀ (i : Nat) (ls : List (List Char)) (cols r : Nat) (st : ScanState),
      i < ls.length →
      (∀ j < i, (ls.getD j []).length = cols) →
      (∀ j < i, ∀ ch ∈ ls.getD j [], validCharB ch = true) →
      (ls.getD i []).length ≠ cols →
      scanLines cols r st ls =
        .error (.malformedGrid (r + i + 1) cols (ls.getD i []).length) := by
  intro i
  induction i with
  | zero =>
    intro ls cols r st hlt _ _ hbad
    cases ls with
    | nil => simp at hlt
    | cons line rest =>
      rw [scanLines_cons]
      rw [if_pos (by simpa using hbad)]
      simp
  | succ i ih =>
    intro ls cols r st hlt hgood hval hbad
    cases ls with
    | nil => simp at hlt
    | cons line rest =>
      rw [scanLines_cons]
      have h0 : line.length = cols := by simpa using hgood 0 (Nat.succ_pos i)
      rw [if_neg (by rw [h0]; exact fun hc => hc rfl)]
      have hval0 : ∀ ch ∈ line, validCharB ch = true := by
        simpa using hval 0 (Nat.succ_pos i)
      rw [scanChars_clean line r 0 st hval0]
      show scanLines cols (r + 1) _ rest = _
      have harith : r + (i + 1) + 1 = r + 1 + i + 1 := by omega
      rw [harith, List.getD_cons_succ]
      exact ih rest cols (r + 1) _ (by simpa using hlt)
        (fun j hj => by simpa using hgood (j + 1) (Nat.succ_lt_succ hj))
        (fun j hj => by simpa using hval (j + 1) (Nat.succ_lt_succ hj))
        (by simpa using hbad)

theorem scanLines_invalidChar :
    ∀ (i : Nat) (ls : List (List Char)) (cols r : Nat) (st : ScanState)
      (c0 : Nat) (ch : Char) (tail : List (Nat × Nat × Char)),
      i < ls.length →
      (∀ j ≤ i, (ls.getD j []).length = cols) →
      (∀ j < i, ∀ x ∈ ls.getD j [], validCharB x = true) →
      rowInvalidsFrom (r + i) 0 (ls.getD i []) = (r + i, c0, ch) :: tail →
      scanLines cols r st ls = .error (.invalidCharacter ch (r + i) c0) := by
  intro i
  induction i with
  | zero =>
    intro ls cols r st c0 ch tail hlt hlen _ hrow
    cases ls with
    | nil => simp at hlt
    | cons line rest =>
      rw [scanLines_cons]
      have h0 : line.length = cols := by simpa using hlen 0 (le_refl 0)
      rw [if_neg (by rw [h0]; exact fun hc => hc rfl)]
      have hrow0 : rowInvalidsFrom r 0 line = (r, c0, ch) :: tail := by
        simpa using hrow
      rw [scanChars_invalid line r 0 c0 ch st tail hrow0]
      show Except.error (ParseError.invalidCharacter ch r c0) = _
      rw [Nat.add_zero]
  | succ i ih =>
    intro ls cols r st c0 ch tail hlt hlen hval hrow
    cases ls with
    | nil => simp at hlt
    | cons line rest =>
      rw [scanLines_cons]
      have h0 : line.length = cols := by simpa using hlen 0 (Nat.zero_le _)
      rw [if_neg (by rw [h0]; exact fun hc => hc rfl)]
      have hval0 : ∀ ch ∈ line, validCharB ch = true := by
        simpa using hval 0 (Nat.succ_pos i)
      rw [scanChars_clean line r 0 st hval0]
      show scanLines cols (r + 1) _ rest = _
      have harith : r + (i + 1) = r + 1 + i := by omega
      rw [harith]
      have hrow1 : rowInvalidsFrom (r + 1 + i) 0 (rest.getD i []) =
          (r + 1 + i, c0, ch) :: tail := by
        rw [← harith]
        simpa using hrow
      exact ih rest cols (r + 1) _ c0 ch tail (by simpa using hlt)
        (fun j hj => by simpa using hlen (j + 1) (Nat.succ_le_succ hj))
        (fun j hj => by simpa using hval (j + 1) (Nat.succ_lt_succ hj))
        hrow1

theorem invalidPositionsFrom_head :
    ∀ (ls : List (List Char)) (r r0 c : Nat) (ch : Char)
      (tail : List (Nat × Nat × Char)),
      invalidPositionsFrom r ls = (r0, c, ch) :: tail →
      r ≤ r0 ∧ r0 - r < ls.length ∧
      (∀ j < r0 - r, ∀ x ∈ ls.getD j [], validCharB x = true) ∧
      ∃ tail2, rowInvalidsFrom r0 0 (ls.getD (r0 - r) []) = (r0, c, ch) :: tail2 := by
  intro ls
  induction ls with
  | nil =>
    intro r r0 c ch tail h
    simp [invalidPositionsFrom] at h
  | cons line rest ih =>
    intro r r0 c ch tail h
    have hstep : invalidPositionsFrom r (line :: rest) =
        rowInvalidsFrom r 0 line ++ invalidPositionsFrom (r + 1) rest := rfl
    rw [hstep] at h
    cases hrow : rowInvalidsFrom r 0 line with
    | nil =>
      rw [hrow, List.nil_append] at h
      obtain ⟨h1, h2, h3, tail2, h4⟩ := ih (r + 1) r0 c ch tail h
      refine ⟨le_trans (Nat.le_succ r) h1, ?_, ?_, tail2, ?_⟩
      · have heq : r0 - r = (r0 - (r + 1)) + 1 := by omega
        rw [heq]
        simp only [List.length_cons]
        omega
      · intro j hj x hx
        cases j with
        | zero =>
          simp at hx
          exact (rowInvalidsFrom_eq_nil_iff line r 0).mp hrow x hx
        | succ j' =>
          have hj' : j' < r0 - (r + 1) := by omega
          exact h3 j' hj' x (by simpa using hx)
      · have : r0 - r = (r0 - (r + 1)) + 1 := by omega
        rw [this]
        simpa using h4
    | cons q t =>
      rw [hrow, List.cons_append] at h
      injection h with h1 _
      have hq1 : q.1 = r :=
        rowInvalidsFrom_fst line r 0 q (by rw [hrow]; exact List.mem_cons_self _ _)
      have hr0 : r0 = r := by rw [h1] at hq1; exact hq1
      subst hr0
      refine ⟨le_refl r0, ?_, ?_, t, ?_⟩
      · rw [Nat.sub_self]
        simp
      · intro j hj
        rw [Nat.sub_self] at hj
        exact absurd hj (Nat.not_lt_zero j)
      · rw [Nat.sub_self]
        simp only [List.getD_cons_zero]
        rw [hrow, h1]

theorem markerPositions_eq_nil_iff (ch : Char) (ls : List (List Char)) :
    markerPositions ch ls = [] ↔ ∀ l ∈ ls, ch ∉ l :=
  markerPositionsFrom_eq_nil_iff ch ls 0

/-! ## Parser claims -/

/-- Claim C3 (amended): if, after stripping surrounding whitespace and
splitting on line breaks, some row's length differs from the first row's
length, and every row before the first such offending row has the
expected length and only valid maze characters, then the parser fails
with a `MalformedGrid` error identifying the offending row (1-based) and
the expected and actual lengths. -/
theorem claim_C3 (s : List Char) (r : Nat)
    (hr : r < (splitNl (pyStrip s)).length)
    (hmis : ((splitNl (pyStrip s)).getD r []).length ≠
      ((splitNl (pyStrip s)).headD []).length)
    (hpre : ∀ i < r, ((splitNl (pyStrip s)).getD i []).length =
      ((splitNl (pyStrip s)).headD []).length)
    (hval : ∀ i < r, ∀ ch ∈ (splitNl (pyStrip s)).getD i [], validCharB ch = true) :
    parse_maze_for_cython s =
      .error (.malformedGrid (r + 1) ((splitNl (pyStrip s)).headD []).length
        ((splitNl (pyStrip s)).getD r []).length) := by
  have hne : pyStrip s ≠ [] := by
    intro h0
    rw [h0] at hr hmis
    have h1 : splitNl ([] : List Char) = [[]] := rfl
    rw [h1] at hr hmis
    simp at hr
    rw [hr] at hmis
    simp at hmis
  simp only [parse_maze_for_cython]
  rw [if_neg hne, if_neg (splitNl_ne_nil _)]
  have hmain := scanLines_malformed r (splitNl (pyStrip s))
    ((splitNl (pyStrip s)).headD []).length 0 ⟨none, none⟩ hr hpre hval hmis
  rw [Nat.zero_add] at hmain
  rw [hmain]

/-- Claim C3, counterexample to the claim as stated: the input
`"@\n##"` has rows of unequal length, yet the parser reports
`InvalidCharacter`, not `MalformedGrid`, because characters of a row are
checked before later rows' lengths. -/
theorem claim_C3_counterexample :
    raggedB mzRagged = true ∧
    parse_maze_for_cython mzRagged = .error (.invalidCharacter '@' 0 0) ∧
    parseMalformedB (parse_maze_for_cython mzRagged) = false :=
  ⟨rfl, rfl, rfl⟩

/-- Claim C3, witness: the spec's example `"#\n##"` does fail with
`MalformedGrid` (row 2, expected 1, actual 2). -/
theorem claim_C3_witness :
    parse_maze_for_cython mzMalformed = .error (.malformedGrid 2 1 2) :=
  claim_C3 mzMalformed 1 (by decide) (by decide) (by decide) (by decide)

/-- Claim C4 (amended): on clean input (nonempty, rectangular, valid
characters), the parser fails with `MissingStart` exactly when the start
marker occurs zero times (checked first), and with `MissingEnd` when a
start marker exists but the end marker occurs zero times.  More than one
occurrence is not rejected. -/
theorem claim_C4 (s : List Char) (hne : pyStrip s ≠ [])
    (hrect : ∀ l ∈ splitNl (pyStrip s),
      l.length = ((splitNl (pyStrip s)).headD []).length)
    (hval : ∀ l ∈ splitNl (pyStrip s), ∀ ch ∈ l, validCharB ch = true) :
    ((∀ l ∈ splitNl (pyStrip s), 'S' ∉ l) →
      parse_maze_for_cython s = .error .missingStart) ∧
    ((∃ l, l ∈ splitNl (pyStrip s) ∧ 'S' ∈ l) →
      (∀ l ∈ splitNl (pyStrip s), 'E' ∉ l) →
      parse_maze_for_cython s = .error .missingEnd) := by
  constructor
  · intro hS
    rw [parse_clean s hne hrect hval]
    have h1 : markerPositions 'S' (splitNl (pyStrip s)) = [] :=
      (markerPositions_eq_nil_iff _ _).mpr hS
    rw [h1]
    rfl
  · intro hS hE
    rw [parse_clean s hne hrect hval]
    have h2 : markerPositions 'E' (splitNl (pyStrip s)) = [] :=
      (markerPositions_eq_nil_iff _ _).mpr hE
    have h1 : markerPositions 'S' (splitNl (pyStrip s)) ≠ [] := by
      intro h0
      obtain ⟨l, hl, hmem⟩ := hS
      exact (markerPositions_eq_nil_iff _ _).mp h0 l hl hmem
    cases hgl : (markerPositions 'S' (splitNl (pyStrip s))).getLast? with
    | none => exact absurd (List.getLast?_eq_none_iff.mp hgl) h1
    | some sc =>
      have hE2 : (markerPositions 'E' (splitNl (pyStrip s))).getLast? = none := by
        rw [h2]
        rfl
      simp only [hE2]

/-- Claim C4, counterexample to the claim as stated: `"SSE"` has two
start markers — not "exactly once" — yet the parser succeeds instead of
failing with `MissingStart`. -/
theorem claim_C4_counterexample :
    2 ≤ (markerPositions 'S' (splitNl (pyStrip mzDupMarkers))).length ∧
    parseOkB (parse_maze_for_cython mzDupMarkers) = true :=
  ⟨by decide, rfl⟩

/-- Claim C4, witness: `"##"` (no start marker) fails with
`MissingStart`; `"S#"` (start but no end marker) fails with
`MissingEnd`. -/
theorem claim_C4_witness :
    parse_maze_for_cython mzNoStart = .error .missingStart ∧
    parse_maze_for_cython mzNoEnd = .error .missingEnd := by
  constructor
  · exact (claim_C4 mzNoStart (by decide) (by decide) (by decide)).1 (by decide)
  · refine (claim_C4 mzNoEnd (by decide) (by decide) (by decide)).2 ?_ (by decide)
    exact ⟨['S', '#'], by decide, by decide⟩

/-- Claim C5: a rectangular, otherwise valid maze string with duplicate
start or end markers is not rejected: the parser succeeds and returns the
last-seen (row-major) occurrence of each marker. -/
theorem claim_C5 (s : List Char) (sc ec : Nat × Nat) (hne : pyStrip s ≠ [])
    (hrect : ∀ l ∈ splitNl (pyStrip s),
      l.length = ((splitNl (pyStrip s)).headD []).length)
    (hval : ∀ l ∈ splitNl (pyStrip s), ∀ ch ∈ l, validCharB ch = true)
    (hS : (markerPositions 'S' (splitNl (pyStrip s))).getLast? = some sc)
    (hE : (markerPositions 'E' (splitNl (pyStrip s))).getLast? = some ec)
    (_hdup : 2 ≤ (markerPositions 'S' (splitNl (pyStrip s))).length ∨
      2 ≤ (markerPositions 'E' (splitNl (pyStrip s))).length) :
    parse_maze_for_cython s =
      .ok ⟨splitNl (pyStrip s),
           (splitNl (pyStrip s)).map (fun l => l.map intOfChar), sc, ec⟩ := by
  rw [parse_clean s hne hrect hval, hS, hE]

/-- Claim C5, witness: `"SS\nEE"` parses successfully with start `(0,1)`
and end `(1,1)`, the last-seen occurrences in row-major order. -/
theorem claim_C5_witness :
    parse_maze_for_cython mzDupBoth =
      .ok ⟨[['S', 'S'], ['E', 'E']], [[0, 0], [0, 0]], (0, 1), (1, 1)⟩ :=
  claim_C5 mzDupBoth (0, 1) (1, 1) (by decide) (by decide) (by decide)
    (by decide) (by decide) (Or.inl (by decide))

/-- Claim C6 (amended): if, after stripping and splitting, some cell
holds a character outside the maze alphabet, and every row up to and
including the first (row-major) offending coordinate's row has the first
row's length, then the parser fails with `InvalidCharacter` identifying
that first offending coordinate and character. -/
theorem claim_C6 (s : List Char) (r c : Nat) (ch : Char)
    (hhead : (invalidPositions (splitNl (pyStrip s))).head? = some (r, c, ch))
    (hlen : ∀ i ≤ r, ((splitNl (pyStrip s)).getD i []).length =
      ((splitNl (pyStrip s)).headD []).length) :
    parse_maze_for_cython s = .error (.invalidCharacter ch r c) := by
  cases hip : invalidPositions (splitNl (pyStrip s)) with
  | nil =>
    rw [hip] at hhead
    simp at hhead
  | cons q tail =>
    rw [hip] at hhead
    simp at hhead
    subst hhead
    obtain ⟨_, h2, h3, tail2, h4⟩ :=
      invalidPositionsFrom_head (splitNl (pyStrip s)) 0 r c ch tail hip
    have hne : pyStrip s ≠ [] := by
      intro h0
      rw [h0] at hip
      have h5 : invalidPositions (splitNl ([] : List Char)) = [] := rfl
      rw [h5] at hip
      exact List.noConfusion hip
    simp only [parse_maze_for_cython]
    rw [if_neg hne, if_neg (splitNl_ne_nil _)]
    have h2' : r < (splitNl (pyStrip s)).length := by simpa using h2
    have h3' : ∀ j < r, ∀ x ∈ (splitNl (pyStrip s)).getD j [], validCharB x = true := by
      intro j hj x hx
      exact h3 j (by simpa using hj) x hx
    have h4' : rowInvalidsFrom (0 + r) 0 ((splitNl (pyStrip s)).getD r []) =
        (0 + r, c, ch) :: tail2 := by
      rw [Nat.zero_add]
      simpa using h4
    have hmain := scanLines_invalidChar r (splitNl (pyStrip s))
      ((splitNl (pyStrip s)).headD []).length 0 ⟨none, none⟩ c ch tail2 h2' hlen h3' h4'
    rw [Nat.zero_add] at hmain
    rw [hmain]

/-- Claim C6, counterexample to the claim as stated: `"##\n#\n@#"`
contains the invalid character `'@'` at `(2,0)`, yet the parser reports
`MalformedGrid` for row 2, because row lengths of earlier rows are
checked before later rows' characters. -/
theorem claim_C6_counterexample :
    hasInvalidB mzPreempt = true ∧
    parse_maze_for_cython mzPreempt = .error (.malformedGrid 2 2 1) ∧
    parseInvalidCharB (parse_maze_for_cython mzPreempt) = false :=
  ⟨rfl, rfl, rfl⟩

/-- Claim C6, witness: `"#@#\nS E"` fails with `InvalidCharacter '@'`
at coordinate `(0,1)`. -/
theorem claim_C6_witness :
    parse_maze_for_cython mzInvalidChar = .error (.invalidCharacter '@' 0 1) :=
  claim_C6 mzInvalidChar 0 1 '@' (by decide)
    (fun i hi => by
      have h0 : i = 0 := Nat.le_zero.mp hi
      subst h0
      decide)

/-- Claim C9: serializing the grid of a successful parse with no path
marks applied and re-parsing yields the very same parse result — the
same grid (hence differing in no cell, in particular in no non-marker
cell) and the same start and end coordinates. -/
theorem claim_C9 (s : List Char) (pm : ParsedMaze)
    (h : parse_maze_for_cython s = .ok pm) :
    parse_maze_for_cython (maze_to_string pm.charGrid) = .ok pm := by
  obtain ⟨_, hchar, _, _⟩ := parse_ok_inv h
  rw [hchar]
  show parse_maze_for_cython (joinNl (splitNl (pyStrip s))) = _
  rw [joinNl_splitNl, parse_pyStrip]
  exact h

/-- Claim C9, witness: round-tripping the parse of `"SE"`. -/
theorem claim_C9_witness :
    parse_maze_for_cython (maze_to_string pmTiny.charGrid) = .ok pmTiny :=
  claim_C9 mzTiny pmTiny rfl

/-- Claim C10: parsing any input gives exactly the same result as
parsing its whitespace-stripped form — surrounding whitespace, including
free-path spaces before the first row and after the last row, is
silently removed before the grid is built. -/
theorem claim_C10 (s : List Char) :
    parse_maze_for_cython s = parse_maze_for_cython (pyStrip s) :=
  (parse_pyStrip s).symm

/-! ## Driver timing (claim C7) -/

/-- Claim C7: `solve_maze` returns normally on every input — parse
failures included — and the returned value is the elapsed time
`(t1 - t0) * 1000` in fractional milliseconds, non-negative whenever the
second clock sample is not earlier than the first. -/
theorem claim_C7 (lab : List Char) (t0 t1 : ℚ) (fmt : ℚ → List Char)
    (h : t0 ≤ t1) :
    (solve_maze lab t0 t1 fmt).timeMs = (t1 - t0) * 1000 ∧
    0 ≤ (solve_maze lab t0 t1 fmt).timeMs := by
  have htime : (solve_maze lab t0 t1 fmt).timeMs = (t1 - t0) * 1000 := by
    simp only [solve_maze]
    cases hp : parse_maze_for_cython lab with
    | error e => rfl
    | ok pm => split <;> first | rfl | (split <;> rfl)
  refine ⟨htime, ?_⟩
  rw [htime]
  have h1 : (0 : ℚ) ≤ t1 - t0 := by linarith
  exact mul_nonneg h1 (by norm_num)

/-- Claim C7, witness: a maze with no end marker, sampled at times 0
and 1. -/
theorem claim_C7_witness :
    (0 : ℚ) ≤ 1 ∧
    (solve_maze mzNoEnd 0 1 fmtZero).timeMs = (1 - 0) * 1000 ∧
    0 ≤ (solve_maze mzNoEnd 0 1 fmtZero).timeMs :=
  ⟨by norm_num, claim_C7 mzNoEnd 0 1 fmtZero (by norm_num)⟩

/-! ## Renderer lemmas (claim C8) -/

theorem set_oob {α} : ∀ (l : List α) (n : Nat) (v : α),
    l.length ≤ n → l.set n v = l := by
  intro l
  induction l with
  | nil => intro n v _; rfl
  | cons x t ih =>
    intro n v hn
    cases n with
    | zero => simp at hn
    | succ m =>
      show x :: t.set m v = x :: t
      rw [ih m v (by simpa using hn)]

theorem getD_set_self {α} : ∀ (l : List α) (n : Nat) (v d : α),
    n < l.length → (l.set n v).getD n d = v := by
  intro l
  induction l with
  | nil => intro n v d hn; simp at hn
  | cons x t ih =>
    intro n v d hn
    cases n with
    | zero => rfl
    | succ m => exact ih m v d (by simpa using hn)

theorem getD_set_ne {α} : ∀ (l : List α) (n m : Nat) (v d : α),
    n ≠ m → (l.set n v).getD m d = l.getD m d := by
  intro l
  induction l with
  | nil => intro n m v d _; rfl
  | cons x t ih =>
    intro n m v d hnm
    cases n with
    | zero =>
      cases m with
      | zero => exact absurd rfl hnm
      | succ m' => rfl
    | succ n' =>
      cases m with
      | zero => rfl
      | succ m' =>
        show (t.set n' v).getD m' d = t.getD m' d
        exact ih n' m' v d (fun hc => hnm (by rw [hc]))

theorem getD_mem {α} : ∀ (l : List α) (n : Nat) (d : α),
    n < l.length → l.getD n d ∈ l := by
  intro l
  induction l with
  | nil => intro n d hn; simp at hn
  | cons x t ih =>
    intro n d hn
    cases n with
    | zero => exact List.mem_cons_self _ _
    | succ m => exact List.mem_cons_of_mem _ (ih m d (by simpa using hn))

theorem mem_of_mem_set {α} : ∀ (l : List α) (n : Nat) (v x : α),
    x ∈ l.set n v → x = v ∨ x ∈ l := by
  intro l
  induction l with
  | nil => intro n v x hx; simp [List.set] at hx
  | cons y t ih =>
    intro n v x hx
    cases n with
    | zero =>
      rcases List.mem_cons.mp hx with h1 | h1
      · exact Or.inl h1
      · exact Or.inr (List.mem_cons_of_mem _ h1)
    | succ m =>
      rcases List.mem_cons.mp hx with h1 | h1
      · exact Or.inr (by rw [h1]; exact List.mem_cons_self _ _)
      · rcases ih m v x h1 with h2 | h2
        · exact Or.inl h2
        · exact Or.inr (List.mem_cons_of_mem _ h2)

theorem setCell_length (g : List (List Char)) (r c : Nat) (v : Char) :
    (setCell g r c v).length = g.length := by
  simp [setCell]

theorem setCell_row_length (g : List (List Char)) (r c : Nat) (v : Char) (r' : Nat) :
    ((setCell g r c v).getD r' []).length = (g.getD r' []).length := by
  unfold setCell
  by_cases hr : r = r'
  · subst hr
    by_cases hlt : r < g.length
    · rw [getD_set_self g r _ [] hlt]
      simp
    · rw [set_oob g r _ (by omega)]
  · rw [getD_set_ne g r r' _ [] hr]

theorem setCell_get_self (g : List (List Char)) (r c : Nat) (v : Char)
    (hr : r < g.length) (hc : c < (g.getD r []).length) :
    ((setCell g r c v).getD r []).getD c ' ' = v := by
  unfold setCell
  rw [getD_set_self g r _ [] hr, getD_set_self _ c v ' ' hc]

theorem setCell_get_ne (g : List (List Char)) (r c : Nat) (v : Char)
    (r' c' : Nat) (hne : (r, c) ≠ (r', c')) :
    ((setCell g r c v).getD r' []).getD c' ' ' = (g.getD r' []).getD c' ' ' := by
  unfold setCell
  by_cases hr : r = r'
  · subst hr
    have hc : c ≠ c' := fun hc0 => hne (by rw [hc0])
    by_cases hlt : r < g.length
    · rw [getD_set_self g r _ [] hlt, getD_set_ne _ c c' v ' ' hc]
    · rw [set_oob g r _ (by omega)]
  · rw [getD_set_ne g r r' _ [] hr]

/-- One step of the drawing fold. -/
def drawStep (acc : List (List Char)) (p : Nat × Nat) : List (List Char) :=
  let cur := (acc.getD p.1 []).getD p.2 ' '
  if cur ≠ 'S' ∧ cur ≠ 'E' then setCell acc p.1 p.2 '·' else acc

theorem draw_eq_foldl (charGrid : List (List Char)) (path : List (Nat × Nat)) :
    draw_path_on_char_grid charGrid path = path.foldl drawStep charGrid := by
  rfl

theorem drawStep_length (g : List (List Char)) (p : Nat × Nat) :
    (drawStep g p).length = g.length := by
  simp only [drawStep]
  split
  · exact setCell_length g p.1 p.2 '·'
  · rfl

theorem drawStep_row_length (g : List (List Char)) (p : Nat × Nat) (r : Nat) :
    ((drawStep g p).getD r []).length = (g.getD r []).length := by
  simp only [drawStep]
  split
  · exact setCell_row_length g p.1 p.2 '·' r
  · rfl

theorem drawStep_get_ne (g : List (List Char)) (p : Nat × Nat) (r c : Nat)
    (hne : p ≠ (r, c)) :
    ((drawStep g p).getD r []).getD c ' ' = (g.getD r []).getD c ' ' := by
  simp only [drawStep]
  split
  · exact setCell_get_ne g p.1 p.2 '·' r c (by rwa [show (p.1, p.2) = p from rfl])
  · rfl

theorem drawStep_get_mk (g : List (List Char)) (r c : Nat)
    (hr : r < g.length) (hc : c < (g.getD r []).length) :
    ((drawStep g (r, c)).getD r []).getD c ' ' =
      (if (g.getD r []).getD c ' ' ≠ 'S' ∧ (g.getD r []).getD c ' ' ≠ 'E'
        then '·' else (g.getD r []).getD c ' ') := by
  simp only [drawStep]
  split
  · exact setCell_get_self g r c '·' hr hc
  · rfl

theorem draw_length :
    ∀ (path : List (Nat × Nat)) (g : List (List Char)),
      (path.foldl drawStep g).length = g.length := by
  intro path
  induction path with
  | nil => intro g; rfl
  | cons p rest ih =>
    intro g
    show (rest.foldl drawStep (drawStep g p)).length = g.length
    rw [ih (drawStep g p), drawStep_length]

theorem draw_row_length :
    ∀ (path : List (Nat × Nat)) (g : List (List Char)) (r : Nat),
      ((path.foldl drawStep g).getD r []).length = (g.getD r []).length := by
  intro path
  induction path with
  | nil => intro g r; rfl
  | cons p rest ih =>
    intro g r
    show ((rest.foldl drawStep (drawStep g p)).getD r []).length = _
    rw [ih (drawStep g p) r, drawStep_row_length]

theorem draw_cell :
    ∀ (path : List (Nat × Nat)) (g : List (List Char)),
      (∀ p ∈ path, p.1 < g.length ∧ p.2 < (g.getD p.1 []).length) →
      ∀ r c,
        ((path.foldl drawStep g).getD r []).getD c ' ' =
          if (r, c) ∈ path ∧ (g.getD r []).getD c ' ' ≠ 'S' ∧
              (g.getD r []).getD c ' ' ≠ 'E'
            then '·' else (g.getD r []).getD c ' ' := by
  intro path
  induction path with
  | nil =>
    intro g _ r c
    rw [if_neg (by simp)]
    rfl
  | cons p rest ih =>
    intro g hb r c
    have hbrest : ∀ q ∈ rest, q.1 < (drawStep g p).length ∧
        q.2 < ((drawStep g p).getD q.1 []).length := by
      intro q hq
      obtain ⟨h1, h2⟩ := hb q (List.mem_cons_of_mem _ hq)
      rw [drawStep_length, drawStep_row_length]
      exact ⟨h1, h2⟩
    show ((rest.foldl drawStep (drawStep g p)).getD r []).getD c ' ' = _
    rw [ih (drawStep g p) hbrest r c]
    by_cases hp : p = (r, c)
    · subst hp
      obtain ⟨hr, hc⟩ := hb (r, c) (List.mem_cons_self _ _)
      rw [drawStep_get_mk g r c hr hc]
      by_cases hse : (g.getD r []).getD c ' ' ≠ 'S' ∧ (g.getD r []).getD c ' ' ≠ 'E'
      · rw [if_pos hse]
        by_cases hmem : (r, c) ∈ rest
        · rw [if_pos ⟨hmem, by decide, by decide⟩,
            if_pos ⟨List.mem_cons_self _ _, hse.1, hse.2⟩]
        · rw [if_neg (fun hcon => hmem hcon.1),
            if_pos ⟨List.mem_cons_self _ _, hse.1, hse.2⟩]
      · rw [if_neg hse, if_neg (fun hcon => hse ⟨hcon.2.1, hcon.2.2⟩),
          if_neg (fun hcon => hse ⟨hcon.2.1, hcon.2.2⟩)]
    · rw [drawStep_get_ne g p r c hp]
      by_cases hmem : (r, c) ∈ rest
      · by_cases hse : (g.getD r []).getD c ' ' ≠ 'S' ∧ (g.getD r []).getD c ' ' ≠ 'E'
        · rw [if_pos ⟨hmem, hse.1, hse.2⟩,
            if_pos ⟨List.mem_cons_of_mem _ hmem, hse.1, hse.2⟩]
        · rw [if_neg (fun hcon => hse ⟨hcon.2.1, hcon.2.2⟩),
            if_neg (fun hcon => hse ⟨hcon.2.1, hcon.2.2⟩)]
      · have hnotin : (r, c) ∉ p :: rest := by
          intro hcon
          rcases List.mem_cons.mp hcon with h1 | h1
          · exact hp h1.symm
          · exact hmem h1
        rw [if_neg (fun hcon => hmem hcon.1), if_neg (fun hcon => hnotin hcon.1)]

theorem draw_no_newline :
    ∀ (path : List (Nat × Nat)) (g : List (List Char)),
      (∀ l ∈ g, '\n' ∉ l) →
      ∀ l ∈ path.foldl drawStep g, '\n' ∉ l := by
  intro path
  induction path with
  | nil => intro g h l hl; exact h l hl
  | cons p rest ih =>
    intro g h l hl
    refine ih (drawStep g p) ?_ l hl
    intro l' hl'
    simp only [drawStep] at hl'
    split at hl'
    · unfold setCell at hl'
      rcases mem_of_mem_set _ _ _ _ hl' with h1 | h1
      · subst h1
        intro hcon
        rcases mem_of_mem_set _ _ _ _ hcon with h2 | h2
        · exact absurd h2 (by decide)
        · by_cases hr : p.1 < g.length
          · exact h (g.getD p.1 []) (getD_mem g p.1 [] hr) h2
          · rw [show g.getD p.1 [] = [] from by
              rw [List.getD_eq_getD_get?]
              rw [List.get?_eq_none.mpr (by omega)]
              rfl] at h2
            simp at h2
      · exact h l' h1
    · exact h l' hl'

/-- Claim C8: drawing a found path overwrites exactly the path cells
whose original content is neither the start nor the end marker with the
`'·'` marker, leaves every other cell (and the grid's shape) unchanged,
acts on a copy (the embedded function is pure, mirroring the row-copies
taken by the source), and the drawn grid serializes to a row-per-line
string that splits back into exactly its rows. -/
theorem claim_C8 (charGrid : List (List Char)) (path : List (Nat × Nat))
    (hb : ∀ p ∈ path, p.1 < charGrid.length ∧ p.2 < (charGrid.getD p.1 []).length)
    (hgne : charGrid ≠ []) (hnl : ∀ l ∈ charGrid, '\n' ∉ l) :
    (draw_path_on_char_grid charGrid path).length = charGrid.length ∧
    (∀ r, ((draw_path_on_char_grid charGrid path).getD r []).length =
      (charGrid.getD r []).length) ∧
    (∀ r c, ((draw_path_on_char_grid charGrid path).getD r []).getD c ' ' =
      if (r, c) ∈ path ∧ (charGrid.getD r []).getD c ' ' ≠ 'S' ∧
          (charGrid.getD r []).getD c ' ' ≠ 'E'
        then '·' else (charGrid.getD r []).getD c ' ') ∧
    splitNl (maze_to_string (draw_path_on_char_grid charGrid path)) =
      draw_path_on_char_grid charGrid path := by
  rw [draw_eq_foldl]
  refine ⟨draw_length path charGrid, draw_row_length path charGrid,
    draw_cell path charGrid hb, ?_⟩
  show splitNl (joinNl _) = _
  apply splitNl_joinNl
  · intro h0
    apply hgne
    have hlen := draw_length path charGrid
    rw [h0] at hlen
    exact List.length_eq_zero.mp hlen.symm
  · exact draw_no_newline path charGrid hnl

/-- Claim C8, witness: drawing the two-edge path of the maze `"S E"`. -/
theorem claim_C8_witness :
    (draw_path_on_char_grid pmOpen.charGrid [(0, 0), (0, 1), (0, 2)]).length =
      pmOpen.charGrid.length ∧
    (∀ r, ((draw_path_on_char_grid pmOpen.charGrid
        [(0, 0), (0, 1), (0, 2)]).getD r []).length =
      (pmOpen.charGrid.getD r []).length) ∧
    (∀ r c, ((draw_path_on_char_grid pmOpen.charGrid
        [(0, 0), (0, 1), (0, 2)]).getD r []).getD c ' ' =
      if (r, c) ∈ [(0, 0), (0, 1), (0, 2)] ∧
          (pmOpen.charGrid.getD r []).getD c ' ' ≠ 'S' ∧
          (pmOpen.charGrid.getD r []).getD c ' ' ≠ 'E'
        then '·' else (pmOpen.charGrid.getD r []).getD c ' ') ∧
    splitNl (maze_to_string (draw_path_on_char_grid pmOpen.charGrid
        [(0, 0), (0, 1), (0, 2)])) =
      draw_path_on_char_grid pmOpen.charGrid [(0, 0), (0, 1), (0, 2)] :=
  claim_C8 pmOpen.charGrid [(0, 0), (0, 1), (0, 2)] (by decide) (by decide)
    (by decide)

/-! ## Path calculus on the grid graph -/

theorem head?_some_mem {α} : ∀ {l : List α} {a : α}, l.head? = some a → a ∈ l := by
  intro l a h
  cases l with
  | nil => simp at h
  | cons x t =>
    simp at h
    exact h ▸ List.mem_cons_self x t

theorem mem_rawNbrs_iff (p q : Coord) : q ∈ rawNbrs p ↔ Adjacent p q := by
  unfold rawNbrs Adjacent
  by_cases h1 : 0 < p.1 <;> by_cases h2 : 0 < p.2 <;>
    simp [h1, h2, Prod.ext_iff] <;> omega

theorem validPath_ne_nil {g : List (List Nat)} {s e : Coord} {p : List Coord}
    (h : ValidPath g s e p) : p ≠ [] := by
  intro h0
  rw [h0] at h
  simp [ValidPath] at h

theorem validPath_length_pos {g : List (List Nat)} {s e : Coord} {p : List Coord}
    (h : ValidPath g s e p) : 1 ≤ p.length := by
  cases hp : p with
  | nil => exact absurd hp (validPath_ne_nil h)
  | cons x t => simp

theorem validPath_singleton {g : List (List Nat)} {s : Coord}
    (hfree : freeCell g s = true) : ValidPath g s s [s] := by
  refine ⟨rfl, rfl, List.chain'_singleton s, ?_⟩
  intro q hq
  simp at hq
  rw [hq]
  exact hfree

theorem validPath_snoc {g : List (List Nat)} {s u v : Coord} {p : List Coord}
    (h : ValidPath g s u p) (hadj : Adjacent u v) (hfree : freeCell g v = true) :
    ValidPath g s v (p ++ [v]) := by
  obtain ⟨h1, h2, h3, h4⟩ := h
  refine ⟨?_, ?_, ?_, ?_⟩
  · cases p with
    | nil => simp at h1
    | cons x t => exact h1
  · rw [List.getLast?_append_of_ne_nil p (by simp)]
    rfl
  · apply List.Chain'.append h3 (List.chain'_singleton v)
    intro x hx y hy
    rw [h2] at hx
    simp at hx hy
    rw [← hx, ← hy]
    exact hadj
  · intro q hq
    rcases List.mem_append.mp hq with h5 | h5
    · exact h4 q h5
    · simp at h5
      rw [h5]
      exact hfree

theorem validPath_length_one {g : List (List Nat)} {s e : Coord} {p : List Coord}
    (h : ValidPath g s e p) (hl : p.length = 1) : e = s := by
  obtain ⟨h1, h2, _, _⟩ := h
  cases p with
  | nil => simp at hl
  | cons x t =>
    cases t with
    | nil =>
      simp at h1 h2
      rw [← h1, ← h2]
    | cons y t' => simp at hl

theorem validPath_decomp {g : List (List Nat)} {s e : Coord} {p : List Coord}
    (h : ValidPath g s e p) (hl : 2 ≤ p.length) :
    ∃ q u, p = q ++ [e] ∧ ValidPath g s u q ∧ Adjacent u e := by
  obtain ⟨h1, h2, h3, h4⟩ := h
  have hpne : p ≠ [] := by
    intro h0
    rw [h0] at hl
    simp at hl
  obtain ⟨q, x, hqx⟩ := (List.eq_nil_or_concat p).resolve_left hpne
  rw [List.concat_eq_append] at hqx
  subst hqx
  have hx : x = e := by
    rw [List.getLast?_append_of_ne_nil q (by simp)] at h2
    simpa using h2
  subst hx
  have hqne : q ≠ [] := by
    intro h0
    rw [h0] at hl
    simp at hl
  obtain ⟨u, hu⟩ : ∃ u, q.getLast? = some u := by
    have := (List.getLast?_isSome (l := q)).mpr hqne
    exact Option.isSome_iff_exists.mp this
  have hchain := List.chain'_append.mp h3
  refine ⟨q, u, rfl, ⟨?_, hu, hchain.1, ?_⟩, ?_⟩
  · cases q with
    | nil => exact absurd rfl hqne
    | cons a t => exact h1
  · intro z hz
    exact h4 z (List.mem_append.mpr (Or.inl hz))
  · exact hchain.2.2 u (by rw [hu]; rfl) x (by rfl)

theorem exists_min_nat {P : Nat → Prop} (h : ∃ n, P n) :
    ∃ n, P n ∧ ∀ m, P m → n ≤ m := by
  obtain ⟨n, hn⟩ := h
  induction n using Nat.strong_induction_on with
  | _ n ih =>
    by_cases hless : ∃ m, m < n ∧ P m
    · obtain ⟨m, hm, hPm⟩ := hless
      exact ih m hm hPm
    · push_neg at hless
      refine ⟨n, hn, fun m hPm => ?_⟩
      by_contra hlt
      push_neg at hlt
      exact hless m hlt hPm

theorem exists_dist {g : List (List Nat)} {s v : Coord} (h : Reach g s v) :
    ∃ n, distIs g s v n := by
  obtain ⟨p, hp⟩ := h
  have hex : ∃ k, ∃ q, ValidPath g s v q ∧ q.length = k + 1 := by
    refine ⟨p.length - 1, p, hp, ?_⟩
    have := validPath_length_pos hp
    omega
  obtain ⟨n, hn, hmin⟩ := exists_min_nat hex
  refine ⟨n, hn, ?_⟩
  intro q hq
  have hq1 := validPath_length_pos hq
  have hle := hmin (q.length - 1) ⟨q, hq, by omega⟩
  omega

theorem dist_unique {g : List (List Nat)} {s v : Coord} {n m : Nat}
    (h1 : distIs g s v n) (h2 : distIs g s v m) : n = m := by
  obtain ⟨⟨p1, hp1, hl1⟩, hmin1⟩ := h1
  obtain ⟨⟨p2, hp2, hl2⟩, hmin2⟩ := h2
  have a1 := hmin1 p2 hp2
  have a2 := hmin2 p1 hp1
  omega

theorem dist_reach {g : List (List Nat)} {s v : Coord} {n : Nat}
    (h : distIs g s v n) : Reach g s v := by
  obtain ⟨⟨p, hp, _⟩, _⟩ := h
  exact ⟨p, hp⟩

theorem dist_free_tgt {g : List (List Nat)} {s v : Coord} {n : Nat}
    (h : distIs g s v n) : freeCell g v = true := by
  obtain ⟨⟨p, hp, _⟩, _⟩ := h
  exact hp.2.2.2 v (getLast?_some_mem hp.2.1)

theorem dist_free_src {g : List (List Nat)} {s v : Coord} {n : Nat}
    (h : distIs g s v n) : freeCell g s = true := by
  obtain ⟨⟨p, hp, _⟩, _⟩ := h
  exact hp.2.2.2 s (head?_some_mem hp.1)

theorem reach_free_src {g : List (List Nat)} {s v : Coord} (h : Reach g s v) :
    freeCell g s = true := by
  obtain ⟨n, hn⟩ := exists_dist h
  exact dist_free_src hn

theorem dist_zero {g : List (List Nat)} {s : Coord} (hfree : freeCell g s = true) :
    distIs g s s 0 := by
  refine ⟨⟨[s], validPath_singleton hfree, rfl⟩, ?_⟩
  intro p hp
  have := validPath_length_pos hp
  omega

theorem dist_zero_eq {g : List (List Nat)} {s v : Coord} (h : distIs g s v 0) :
    v = s := by
  obtain ⟨⟨p, hp, hl⟩, _⟩ := h
  exact validPath_length_one hp hl

theorem dist_step_le {g : List (List Nat)} {s u v : Coord} {n : Nat}
    (hu : distIs g s u n) (hadj : Adjacent u v) (hfree : freeCell g v = true) :
    ∃ m, distIs g s v m ∧ m ≤ n + 1 := by
  obtain ⟨⟨p, hp, hl⟩, _⟩ := hu
  have hv : ValidPath g s v (p ++ [v]) := validPath_snoc hp hadj hfree
  obtain ⟨m, hm⟩ := exists_dist ⟨_, hv⟩
  refine ⟨m, hm, ?_⟩
  have hle := hm.2 (p ++ [v]) hv
  rw [List.length_append, hl] at hle
  simp at hle
  omega

theorem dist_pred {g : List (List Nat)} {s v : Coord} {n : Nat}
    (h : distIs g s v (n + 1)) :
    ∃ u, Adjacent u v ∧ distIs g s u n := by
  obtain ⟨⟨p, hp, hl⟩, hmin⟩ := h
  have hfreev : freeCell g v = true := hp.2.2.2 v (getLast?_some_mem hp.2.1)
  have hl2 : 2 ≤ p.length := by omega
  obtain ⟨q, u, hdec, hq, hadj⟩ := validPath_decomp hp hl2
  subst hdec
  have hqlen : q.length = n + 1 := by
    rw [List.length_append] at hl
    simp at hl
    omega
  obtain ⟨m, hm⟩ := exists_dist ⟨q, hq⟩
  have hm_le : m ≤ n := by
    have := hm.2 q hq
    omega
  have hm_ge : n ≤ m := by
    by_contra hlt
    push_neg at hlt
    obtain ⟨⟨q2, hq2, hq2l⟩, _⟩ := hm
    have hshort := hmin (q2 ++ [v]) (validPath_snoc hq2 hadj hfreev)
    rw [List.length_append, hq2l] at hshort
    simp at hshort
    omega
  have heq : m = n := le_antisymm hm_le hm_ge
  subst heq
  exact ⟨u, hadj, hm⟩

/-! ## BFS bookkeeping lemmas -/

theorem predLookup_cons (k u : Coord) (rest : List (Coord × Coord)) (v : Coord) :
    predLookup ((k, u) :: rest) v = if k = v then some u else predLookup rest v := by
  rfl

theorem predLookup_append_new :
    ∀ (vs : List Coord) (u : Coord) (pi : List (Coord × Coord)) (w : Coord),
      predLookup (vs.map (fun v => (v, u)) ++ pi) w =
        if w ∈ vs then some u else predLookup pi w := by
  intro vs
  induction vs with
  | nil => intro u pi w; simp
  | cons v rest ih =>
    intro u pi w
    show predLookup ((v, u) :: (rest.map _ ++ pi)) w = _
    rw [predLookup_cons]
    by_cases hv : v = w
    · rw [if_pos hv, if_pos (by rw [← hv]; exact List.mem_cons_self _ _)]
    · rw [if_neg hv, ih u pi w]
      by_cases hw : w ∈ rest
      · rw [if_pos hw, if_pos (List.mem_cons_of_mem _ hw)]
      · rw [if_neg hw, if_neg (by
          intro hc
          rcases List.mem_cons.mp hc with h | h
          · exact hv h.symm
          · exact hw h)]

theorem enqueueNbrs_cons (g : List (List Nat)) (u v : Coord) (rest : List Coord)
    (st : BfsState) :
    enqueueNbrs g u (v :: rest) st =
      if freeCell g v = true ∧ v ∉ st.visited then
        enqueueNbrs g u rest ⟨st.queue ++ [v], v :: st.visited, (v, u) :: st.pred⟩
      else enqueueNbrs g u rest st := by
  rfl

theorem enqueueNbrs_spec (g : List (List Nat)) (u : Coord) :
    ∀ (l : List Coord) (st : BfsState),
      ∃ vs : List Coord,
        enqueueNbrs g u l st =
          ⟨st.queue ++ vs, vs.reverse ++ st.visited,
           vs.reverse.map (fun v => (v, u)) ++ st.pred⟩ ∧
        (∀ v ∈ vs, v ∈ l ∧ freeCell g v = true ∧ v ∉ st.visited) ∧
        (l.Nodup → vs.Nodup) ∧
        (∀ v ∈ l, freeCell g v = true → v ∈ vs ∨ v ∈ st.visited) := by
  intro l
  induction l with
  | nil =>
    intro st
    refine ⟨[], by cases st <;> simp [enqueueNbrs], by simp, fun _ => List.nodup_nil, by simp⟩
  | cons v rest ih =>
    intro st
    rw [enqueueNbrs_cons]
    by_cases hcond : freeCell g v = true ∧ v ∉ st.visited
    · rw [if_pos hcond]
      obtain ⟨vs', heq, hmem, hnd, hcov⟩ :=
        ih ⟨st.queue ++ [v], v :: st.visited, (v, u) :: st.pred⟩
      refine ⟨v :: vs', ?_, ?_, ?_, ?_⟩
      · rw [heq]
        simp [List.reverse_cons, List.append_assoc]
      · intro w hw
        rcases List.mem_cons.mp hw with h1 | h1
        · subst h1
          exact ⟨List.mem_cons_self _ _, hcond.1, hcond.2⟩
        · obtain ⟨hm, hf, hnv⟩ := hmem w h1
          refine ⟨List.mem_cons_of_mem _ hm, hf, ?_⟩
          intro hc
          exact hnv (List.mem_cons_of_mem _ hc)
      · intro hnd0
        have hndrest := (List.nodup_cons.mp hnd0).2
        refine List.nodup_cons.mpr ⟨?_, hnd hndrest⟩
        intro hc
        exact (hmem v hc).2.2 (List.mem_cons_self _ _)
      · intro w hw hf
        rcases List.mem_cons.mp hw with h1 | h1
        · subst h1
          exact Or.inl (List.mem_cons_self _ _)
        · rcases hcov w h1 hf with h2 | h2
          · exact Or.inl (List.mem_cons_of_mem _ h2)
          · rcases List.mem_cons.mp h2 with h3 | h3
            · exact Or.inl (by rw [h3]; exact List.mem_cons_self _ _)
            · exact Or.inr h3
    · rw [if_neg hcond]
      obtain ⟨vs', heq, hmem, hnd, hcov⟩ := ih st
      refine ⟨vs', heq, ?_, fun h0 => hnd (List.nodup_cons.mp h0).2, ?_⟩
      · intro w hw
        obtain ⟨hm, hf, hnv⟩ := hmem w hw
        exact ⟨List.mem_cons_of_mem _ hm, hf, hnv⟩
      · intro w hw hf
        rcases List.mem_cons.mp hw with h1 | h1
        · subst h1
          refine Or.inr ?_
          by_contra hc
          exact hcond ⟨hf, hc⟩
        · exact hcov w h1 hf

theorem rawNbrs_nodup (p : Coord) : (rawNbrs p).Nodup := by
  unfold rawNbrs
  by_cases h1 : 0 < p.1 <;> by_cases h2 : 0 < p.2 <;>
    simp [h1, h2, Prod.ext_iff] <;> omega

theorem freeCell_nil (p : Coord) : freeCell ([] : List (List Nat)) p = false := by
  rfl

theorem freeCell_cons_succ (row : List Nat) (g : List (List Nat)) (r c : Nat) :
    freeCell (row :: g) (r + 1, c) = freeCell g (r, c) := by
  rfl

theorem freeCell_bounds {g : List (List Nat)} {p : Coord}
    (h : freeCell g p = true) :
    p.1 < g.length ∧ p.2 < (g.getD p.1 []).length := by
  unfold freeCell cellAt at h
  cases hg : g.get? p.1 with
  | none => rw [hg] at h; simp at h
  | some row =>
    rw [hg] at h
    have h' : (match row.get? p.2 with
        | none => false
        | some v => v != 1) = true := h
    cases hr : row.get? p.2 with
    | none => rw [hr] at h'; simp at h'
    | some v =>
      constructor
      · by_contra hc
        push_neg at hc
        rw [List.get?_eq_none.mpr hc] at hg
        exact absurd hg (by simp)
      · have hrow : g.getD p.1 [] = row := by
          rw [List.getD_eq_getD_get?, hg]
          rfl
        rw [hrow]
        by_contra hc
        push_neg at hc
        rw [List.get?_eq_none.mpr hc] at hr
        exact absurd hr (by simp)

theorem gridSize_cons (row : List Nat) (rest : List (List Nat)) :
    gridSize (row :: rest) = row.length + gridSize rest := by
  simp [gridSize]

theorem coords_length_le :
    ∀ (g : List (List Nat)) (V : List Coord), V.Nodup →
      (∀ v ∈ V, freeCell g v = true) → V.length ≤ gridSize g := by
  intro g
  induction g with
  | nil =>
    intro V hnd hfree
    cases V with
    | nil => simp [gridSize]
    | cons v t =>
      have h := hfree v (List.mem_cons_self _ _)
      rw [freeCell_nil] at h
      exact absurd h (by simp)
  | cons row rest ih =>
    intro V hnd hfree
    have hpart :=
      (List.length_eq_length_filter_add (l := V) (fun v : Coord => v.1 == 0))
    have h0 : (V.filter (fun v : Coord => v.1 == 0)).length ≤ row.length := by
      have hnd0 : (V.filter (fun v : Coord => v.1 == 0)).Nodup := hnd.filter _
      have hmap : ((V.filter (fun v : Coord => v.1 == 0)).map Prod.snd).Nodup := by
        apply List.Nodup.map_on ?_ hnd0
        intro x hx y hy hxy
        have hx0 : x.1 = 0 := by simpa using List.of_mem_filter hx
        have hy0 : y.1 = 0 := by simpa using List.of_mem_filter hy
        rw [Prod.ext_iff]
        exact ⟨by rw [hx0, hy0], hxy⟩
      have hsub : ((V.filter (fun v : Coord => v.1 == 0)).map Prod.snd) ⊆
          List.range row.length := by
        intro c hc
        obtain ⟨v, hv, rfl⟩ := List.mem_map.mp hc
        have hv0 : v.1 = 0 := by simpa using List.of_mem_filter hv
        have hfv := hfree v (List.mem_of_mem_filter hv)
        obtain ⟨_, h2⟩ := freeCell_bounds hfv
        rw [hv0] at h2
        simp at h2
        simpa using h2
      have hle := (hmap.subperm hsub).length_le
      simpa using hle
    have h1 : (V.filter (fun v : Coord => ! (v.1 == 0))).length ≤ gridSize rest := by
      have hWnd : ((V.filter (fun v : Coord => ! (v.1 == 0))).map
          (fun v : Coord => (v.1 - 1, v.2))).Nodup := by
        apply List.Nodup.map_on ?_ (hnd.filter _)
        intro x hx y hy hxy
        have hx0 : ¬ x.1 = 0 := by simpa using List.of_mem_filter hx
        have hy0 : ¬ y.1 = 0 := by simpa using List.of_mem_filter hy
        rw [Prod.ext_iff] at hxy ⊢
        obtain ⟨ha, hb⟩ := hxy
        exact ⟨by omega, hb⟩
      have hWfree : ∀ w ∈ (V.filter (fun v : Coord => ! (v.1 == 0))).map
          (fun v : Coord => (v.1 - 1, v.2)), freeCell rest w = true := by
        intro w hw
        obtain ⟨v, hv, rfl⟩ := List.mem_map.mp hw
        have hv0 : ¬ v.1 = 0 := by simpa using List.of_mem_filter hv
        have hfv := hfree v (List.mem_of_mem_filter hv)
        have hv1 : v = (v.1 - 1 + 1, v.2) := by
          rw [Prod.ext_iff]
          exact ⟨by omega, rfl⟩
        rw [hv1, freeCell_cons_succ] at hfv
        exact hfv
      have hle := ih _ hWnd hWfree
      simpa using hle
    rw [gridSize_cons]
    omega

/-! ## The BFS invariant: initialization and preservation -/

theorem bfsLoop_succ (g : List (List Nat)) (e : Coord) (fuel : Nat) (st : BfsState) :
    bfsLoop g e (fuel + 1) st =
      match st.queue with
      | [] => none
      | u :: rest =>
        if u = e then some st.pred
        else bfsLoop g e fuel (enqueueNbrs g u (rawNbrs u) ⟨rest, st.visited, st.pred⟩) := by
  rfl

theorem walkBack_succ (pi : List (Coord × Coord)) (s : Coord) (fuel : Nat) (v : Coord) :
    walkBack pi s (fuel + 1) v =
      if v = s then some [s]
      else
        match predLookup pi v with
        | none => none
        | some u =>
          match walkBack pi s fuel u with
          | none => none
          | some p => some (v :: p) := by
  rfl

theorem bfsInv_init (g : List (List Nat)) (s e : Coord)
    (hfree : freeCell g s = true) :
    BfsInv g s e ⟨[s], [s], []⟩ 0 := by
  have hd0 : distIs g s s 0 := dist_zero hfree
  refine ⟨?_, ?_, ?_, ?_, ?_, ?_, ?_, ?_, ?_, ?_, ?_, ?_⟩
  · exact List.mem_cons_self _ _
  · intro v hv
    exact hv
  · simp
  · simp
  · intro v hv
    simp at hv
    rw [hv]
    exact hfree
  · intro v hv
    simp at hv
    rw [hv]
    exact ⟨0, hd0⟩
  · rfl
  · intro v hv hvs
    simp at hv
    exact absurd hv hvs
  · intro x hx hxq
    simp at hx
    rw [hx] at hxq
    exact absurd (List.mem_cons_self _ _) hxq
  · intro x hx hxq
    simp at hx
    rw [hx] at hxq
    exact absurd (List.mem_cons_self _ _) hxq
  · refine ⟨[s], [], by simp, ?_, by simp⟩
    intro v hv
    simp at hv
    rw [hv]
    exact hd0
  · intro w n hw hn
    have hn0 : n = 0 := by omega
    rw [hn0] at hw
    simp [dist_zero_eq hw]

theorem covered_succ (g : List (List Nat)) (s e : Coord) (st : BfsState) (k : Nat)
    (hinv : BfsInv g s e st k)
    (hqall : ∀ x ∈ st.queue, distIs g s x (k + 1)) :
    ∀ w, distIs g s w (k + 1) → w ∈ st.visited := by
  intro w hw
  obtain ⟨p, hadj, hp⟩ := dist_pred hw
  have hpV : p ∈ st.visited := hinv.covered p k hp (le_refl k)
  have hpnq : p ∉ st.queue := by
    intro hc
    have h1 := hqall p hc
    have h2 := dist_unique hp h1
    omega
  exact hinv.processed_closed p hpV hpnq w hadj (dist_free_tgt hw)

theorem bfsInv_step_aux (g : List (List Nat)) (s e u : Coord) (rest : List Coord)
    (st : BfsState) (k k' du : Nat)
    (hinv : BfsInv g s e st k)
    (hq : st.queue = u :: rest)
    (hne : u ≠ e)
    (hdu : distIs g s u du)
    (hnewdist : ∀ v, Adjacent u v → freeCell g v = true → v ∉ st.visited →
      distIs g s v (du + 1))
    (hsplit : ∀ vs : List Coord, (∀ v ∈ vs, distIs g s v (du + 1)) →
      ∃ qa2 qb2, rest ++ vs = qa2 ++ qb2 ∧ (∀ v ∈ qa2, distIs g s v k') ∧
        (∀ v ∈ qb2, distIs g s v (k' + 1)))
    (hcovered : ∀ w n, distIs g s w n → n ≤ k' → w ∈ st.visited) :
    BfsInv g s e (enqueueNbrs g u (rawNbrs u) ⟨rest, st.visited, st.pred⟩) k' := by
  obtain ⟨vs, heq, hmem, hndvs, hcov⟩ :=
    enqueueNbrs_spec g u (rawNbrs u) ⟨rest, st.visited, st.pred⟩
  have huV : u ∈ st.visited :=
    hinv.queue_sub u (by rw [hq]; exact List.mem_cons_self _ _)
  have hqnodup := hinv.queue_nodup
  rw [hq] at hqnodup
  have hrest_nodup : rest.Nodup := (List.nodup_cons.mp hqnodup).2
  have hrest_sub : ∀ x ∈ rest, x ∈ st.visited := fun x hx =>
    hinv.queue_sub x (by rw [hq]; exact List.mem_cons_of_mem _ hx)
  have hvs_props : ∀ v ∈ vs, Adjacent u v ∧ freeCell g v = true ∧ v ∉ st.visited := by
    intro v hv
    obtain ⟨h1, h2, h3⟩ := hmem v hv
    exact ⟨(mem_rawNbrs_iff u v).mp h1, h2, h3⟩
  have hvs_dist : ∀ v ∈ vs, distIs g s v (du + 1) := by
    intro v hv
    obtain ⟨h1, h2, h3⟩ := hvs_props v hv
    exact hnewdist v h1 h2 h3
  have hvs_nd : vs.Nodup := hndvs (rawNbrs_nodup u)
  rw [heq]
  have hmemV : ∀ x : Coord, x ∈ vs.reverse ++ st.visited ↔ x ∈ vs ∨ x ∈ st.visited := by
    intro x
    rw [List.mem_append, List.mem_reverse]
  refine ⟨?_, ?_, ?_, ?_, ?_, ?_, ?_, ?_, ?_, ?_, ?_, ?_⟩
  · exact (hmemV s).mpr (Or.inr hinv.start_mem)
  · intro v hv
    rcases List.mem_append.mp hv with h | h
    · exact (hmemV v).mpr (Or.inr (hrest_sub v h))
    · exact (hmemV v).mpr (Or.inl h)
  · apply List.Nodup.append hrest_nodup hvs_nd
    intro a ha hb
    exact (hmem a hb).2.2 (hrest_sub a ha)
  · apply List.Nodup.append (List.nodup_reverse.mpr hvs_nd) hinv.visited_nodup
    intro a ha hb
    exact (hmem a (List.mem_reverse.mp ha)).2.2 hb
  · intro v hv
    rcases (hmemV v).mp hv with h | h
    · exact (hmem v h).2.1
    · exact hinv.visited_free v h
  · intro v hv
    rcases (hmemV v).mp hv with h | h
    · exact ⟨du + 1, hvs_dist v h⟩
    · exact hinv.visited_dist v h
  · show predLookup (vs.reverse.map _ ++ st.pred) s = none
    rw [predLookup_append_new]
    rw [if_neg (fun hc => (hmem s (List.mem_reverse.mp hc)).2.2 hinv.start_mem)]
    exact hinv.pred_start
  · intro v hv hvs0
    rcases (hmemV v).mp hv with h | h
    · refine ⟨u, du, ?_, (hmemV u).mpr (Or.inr huV), (hvs_props v h).1, hdu,
        hvs_dist v h⟩
      show predLookup (vs.reverse.map _ ++ st.pred) v = some u
      rw [predLookup_append_new, if_pos (List.mem_reverse.mpr h)]
    · have hnotvs : v ∉ vs := fun hc => (hmem v hc).2.2 h
      obtain ⟨w, n, hw1, hw2, hw3, hw4, hw5⟩ := hinv.pred_ok v h hvs0
      refine ⟨w, n, ?_, (hmemV w).mpr (Or.inr hw2), hw3, hw4, hw5⟩
      show predLookup (vs.reverse.map _ ++ st.pred) v = some w
      rw [predLookup_append_new,
        if_neg (fun hc => hnotvs (List.mem_reverse.mp hc))]
      exact hw1
  · intro x hx hxq
    rcases (hmemV x).mp hx with h | h
    · exact absurd (List.mem_append.mpr (Or.inr h)) hxq
    · by_cases hxu : x = u
      · rw [hxu]
        exact hne
      · have hx_oldq : x ∉ st.queue := by
          rw [hq]
          intro hc
          rcases List.mem_cons.mp hc with h1 | h1
          · exact hxu h1
          · exact hxq (List.mem_append.mpr (Or.inl h1))
        exact hinv.processed_not_end x h hx_oldq
  · intro x hx hxq v hadj hfree
    rcases (hmemV x).mp hx with h | h
    · exact absurd (List.mem_append.mpr (Or.inr h)) hxq
    · by_cases hxu : x = u
      · subst hxu
        have hvnb : v ∈ rawNbrs x := (mem_rawNbrs_iff x v).mpr hadj
        rcases hcov v hvnb hfree with h2 | h2
        · exact (hmemV v).mpr (Or.inl h2)
        · exact (hmemV v).mpr (Or.inr h2)
      · have hx_oldq : x ∉ st.queue := by
          rw [hq]
          intro hc
          rcases List.mem_cons.mp hc with h1 | h1
          · exact hxu h1
          · exact hxq (List.mem_append.mpr (Or.inl h1))
        exact (hmemV v).mpr
          (Or.inr (hinv.processed_closed x h hx_oldq v hadj hfree))
  · exact hsplit vs hvs_dist
  · intro w n hw hn
    exact (hmemV w).mpr (Or.inr (hcovered w n hw hn))

theorem bfsInv_step (g : List (List Nat)) (s e u : Coord) (rest : List Coord)
    (st : BfsState) (k : Nat)
    (hinv : BfsInv g s e st k) (hq : st.queue = u :: rest) (hne : u ≠ e) :
    ∃ k', BfsInv g s e (enqueueNbrs g u (rawNbrs u) ⟨rest, st.visited, st.pred⟩) k' := by
  obtain ⟨qa, qb, hsplit, hqa, hqb⟩ := hinv.queue_split
  rw [hq] at hsplit
  cases qa with
  | cons a qa' =>
    rw [List.cons_append] at hsplit
    injection hsplit with ha hrest
    have hdu : distIs g s u k := by
      rw [← ha] at hqa
      exact hqa u (List.mem_cons_self _ _)
    refine ⟨k, bfsInv_step_aux g s e u rest st k k k hinv hq hne hdu ?_ ?_ ?_⟩
    · intro v hadj hfree hnv
      obtain ⟨m, hm, hmle⟩ := dist_step_le hdu hadj hfree
      have h1 : ¬ m ≤ k := fun hc => hnv (hinv.covered v m hm hc)
      have h2 : m = k + 1 := by omega
      exact h2 ▸ hm
    · intro vs hvs
      refine ⟨qa', qb ++ vs, ?_, ?_, ?_⟩
      · rw [hrest, List.append_assoc]
      · intro v hv
        exact hqa v (List.mem_cons_of_mem _ hv)
      · intro v hv
        rcases List.mem_append.mp hv with h | h
        · exact hqb v h
        · exact hvs v h
    · exact fun w n hw hn => hinv.covered w n hw hn
  | nil =>
    rw [List.nil_append] at hsplit
    have hdu : distIs g s u (k + 1) := by
      rw [← hsplit] at hqb
      exact hqb u (List.mem_cons_self _ _)
    have hqall : ∀ x ∈ st.queue, distIs g s x (k + 1) := by
      intro x hx
      rw [hq, hsplit] at hx
      exact hqb x hx
    have hcsucc := covered_succ g s e st k hinv hqall
    refine ⟨k + 1, bfsInv_step_aux g s e u rest st k (k + 1) (k + 1) hinv hq hne hdu
      ?_ ?_ ?_⟩
    · intro v hadj hfree hnv
      obtain ⟨m, hm, hmle⟩ := dist_step_le hdu hadj hfree
      have h1 : ¬ m ≤ k := fun hc => hnv (hinv.covered v m hm hc)
      have h2 : m ≠ k + 1 := by
        intro hc
        exact hnv (hcsucc v (hc ▸ hm))
      have h3 : m = k + 2 := by omega
      exact h3 ▸ hm
    · intro vs hvs
      refine ⟨rest, vs, rfl, ?_, ?_⟩
      · intro v hv
        rw [← hsplit] at hqb
        exact hqb v (List.mem_cons_of_mem _ hv)
      · exact hvs
    · intro w n hw hn
      rcases Nat.lt_or_ge n (k + 1) with h | h
      · exact hinv.covered w n hw (by omega)
      · have h2 : n = k + 1 := by omega
        exact hcsucc w (h2 ▸ hw)

theorem bfs_state_size (g : List (List Nat)) (s e : Coord) (st : BfsState) (k : Nat)
    (hinv : BfsInv g s e st k) : st.visited.length ≤ gridSize g :=
  coords_length_le g st.visited hinv.visited_nodup hinv.visited_free

theorem bfs_step_phi (g : List (List Nat)) (u : Coord) (rest : List Coord)
    (st : BfsState) :
    ∃ m, (enqueueNbrs g u (rawNbrs u) ⟨rest, st.visited, st.pred⟩).queue.length =
        rest.length + m ∧
      (enqueueNbrs g u (rawNbrs u) ⟨rest, st.visited, st.pred⟩).visited.length =
        m + st.visited.length := by
  obtain ⟨vs, heq, _, _, _⟩ :=
    enqueueNbrs_spec g u (rawNbrs u) ⟨rest, st.visited, st.pred⟩
  refine ⟨vs.length, ?_, ?_⟩ <;> rw [heq] <;> simp

/-! ## The BFS loop: completeness and soundness -/

theorem bfsLoop_finds (g : List (List Nat)) (s e : Coord) :
    ∀ (fuel : Nat) (st : BfsState) (k : Nat),
      BfsInv g s e st k →
      st.queue.length + (gridSize g - st.visited.length) < fuel →
      Reach g s e →
      ∃ st' k', bfsLoop g e fuel st = some st'.pred ∧ BfsInv g s e st' k' ∧
        e ∈ st'.visited := by
  intro fuel
  induction fuel with
  | zero =>
    intro st k _ hphi _
    omega
  | succ fuel ih =>
    intro st k hinv hphi hre
    rw [bfsLoop_succ]
    cases hq : st.queue with
    | nil =>
      exfalso
      have hall : ∀ n w, distIs g s w n → w ∈ st.visited := by
        intro n
        induction n using Nat.strong_induction_on with
        | _ n ihn =>
          intro w hw
          cases n with
          | zero =>
            rw [dist_zero_eq hw]
            exact hinv.start_mem
          | succ m =>
            obtain ⟨p, hadj, hp⟩ := dist_pred hw
            have hpV : p ∈ st.visited := ihn m (by omega) p hp
            have hpnq : p ∉ st.queue := by
              rw [hq]
              simp
            exact hinv.processed_closed p hpV hpnq w hadj (dist_free_tgt hw)
      obtain ⟨n, hn⟩ := exists_dist hre
      have heV := hall n e hn
      have henq : e ∉ st.queue := by
        rw [hq]
        simp
      exact (hinv.processed_not_end e heV henq) rfl
    | cons u rest =>
      by_cases hue : u = e
      · refine ⟨st, k, ?_, hinv, ?_⟩
        · show (if u = e then some st.pred else _) = some st.pred
          rw [if_pos hue]
        · rw [← hue]
          exact hinv.queue_sub u (by rw [hq]; exact List.mem_cons_self _ _)
      · obtain ⟨k', hinv'⟩ := bfsInv_step g s e u rest st k hinv hq hue
        obtain ⟨m, hqlen, hvlen⟩ := bfs_step_phi g u rest st
        have hvbound := bfs_state_size g s e _ k' hinv'
        rw [hvlen] at hvbound
        have hphi' : (enqueueNbrs g u (rawNbrs u)
              ⟨rest, st.visited, st.pred⟩).queue.length +
            (gridSize g - (enqueueNbrs g u (rawNbrs u)
              ⟨rest, st.visited, st.pred⟩).visited.length) < fuel := by
          rw [hqlen, hvlen]
          rw [hq] at hphi
          simp at hphi
          omega
        obtain ⟨st', k'', hloop, hinv'', heV⟩ := ih _ k' hinv' hphi' hre
        refine ⟨st', k'', ?_, hinv'', heV⟩
        show (if u = e then some st.pred
          else bfsLoop g e fuel (enqueueNbrs g u (rawNbrs u)
            ⟨rest, st.visited, st.pred⟩)) = some st'.pred
        rw [if_neg hue]
        exact hloop

theorem bfsLoop_none_of_not_reach (g : List (List Nat)) (s e : Coord) :
    ∀ (fuel : Nat) (st : BfsState) (k : Nat),
      BfsInv g s e st k → ¬ Reach g s e → bfsLoop g e fuel st = none := by
  intro fuel
  induction fuel with
  | zero =>
    intro st k _ _
    rfl
  | succ fuel ih =>
    intro st k hinv hnr
    rw [bfsLoop_succ]
    cases hq : st.queue with
    | nil => rfl
    | cons u rest =>
      by_cases hue : u = e
      · exfalso
        apply hnr
        have huV : u ∈ st.visited :=
          hinv.queue_sub u (by rw [hq]; exact List.mem_cons_self _ _)
        obtain ⟨n, hn⟩ := hinv.visited_dist u huV
        rw [← hue]
        exact dist_reach hn
      · obtain ⟨k', hinv'⟩ := bfsInv_step g s e u rest st k hinv hq hue
        show (if u = e then some st.pred
          else bfsLoop g e fuel (enqueueNbrs g u (rawNbrs u)
            ⟨rest, st.visited, st.pred⟩)) = none
        rw [if_neg hue]
        exact ih _ k' hinv' hnr

/-! ## Path reconstruction from the predecessor record -/

theorem walkBack_ok (g : List (List Nat)) (s e : Coord) (st : BfsState) (k : Nat)
    (hinv : BfsInv g s e st k) :
    ∀ n v, v ∈ st.visited → distIs g s v n → ∀ fuel, n < fuel →
      ∃ p, walkBack st.pred s fuel v = some p ∧
        p.length = n + 1 ∧
        (∀ w ∈ p, ∃ m, m ≤ n ∧ distIs g s w m ∧ w ∈ st.visited) ∧
        p.Nodup ∧
        ValidPath g s v p.reverse := by
  intro n
  induction n using Nat.strong_induction_on with
  | _ n ihn =>
    intro v hv hvd fuel hfuel
    cases fuel with
    | zero => omega
    | succ fuel =>
      by_cases hvs : v = s
      · have hfreeS : freeCell g s = true := dist_free_src hvd
        have h0 : distIs g s s 0 := dist_zero hfreeS
        have hn0 : n = 0 := by
          apply dist_unique hvd
          rw [hvs]
          exact h0
        subst hn0
        refine ⟨[s], ?_, rfl, ?_, by simp, ?_⟩
        · rw [walkBack_succ, if_pos hvs]
        · intro w hw
          simp at hw
          rw [hw]
          exact ⟨0, le_refl 0, h0, hvs ▸ hv⟩
        · rw [hvs]
          simpa using validPath_singleton hfreeS
      · obtain ⟨u2, m, hlook, hu2V, hadj, hdu2, hdv⟩ := hinv.pred_ok v hv hvs
        have hnm : n = m + 1 := dist_unique hvd hdv
        subst hnm
        obtain ⟨p, hwp, hlen, hmemp, hndp, hvalid⟩ :=
          ihn m (by omega) u2 hu2V hdu2 fuel (by omega)
        refine ⟨v :: p, ?_, by simp [hlen], ?_, ?_, ?_⟩
        · rw [walkBack_succ, if_neg hvs, hlook]
          show (match walkBack st.pred s fuel u2 with
            | none => none
            | some p => some (v :: p)) = some (v :: p)
          rw [hwp]
        · intro w hw
          rcases List.mem_cons.mp hw with h1 | h1
          · rw [h1]
            exact ⟨m + 1, le_refl _, hdv, hv⟩
          · obtain ⟨m2, hm2le, hm2, hm2V⟩ := hmemp w h1
            exact ⟨m2, by omega, hm2, hm2V⟩
        · refine List.nodup_cons.mpr ⟨?_, hndp⟩
          intro hc
          obtain ⟨m2, hm2le, hm2, _⟩ := hmemp v hc
          have := dist_unique hdv hm2
          omega
        · rw [List.reverse_cons]
          exact validPath_snoc hvalid hadj (dist_free_tgt hdv)

/-! ## Correctness of the modelled search routine -/

theorem gridSize_pos_of_free {g : List (List Nat)} {p : Coord}
    (h : freeCell g p = true) : 1 ≤ gridSize g := by
  obtain ⟨h1, h2⟩ := freeCell_bounds h
  have hmem : g.getD p.1 [] ∈ g := getD_mem g p.1 [] h1
  have hmem2 : (g.getD p.1 []).length ∈ g.map List.length :=
    List.mem_map_of_mem List.length hmem
  have := List.single_le_sum (fun (x : Nat) _ => Nat.zero_le x) _ hmem2
  unfold gridSize
  omega

/-- The shortest-path contract of the modelled search: whenever some
traversable route exists, the returned path is a valid route from `s` to
`e` and no valid route is shorter. -/
theorem find_correct (g : List (List Nat)) (s e : Coord) (h : Reach g s e) :
    ValidPath g s e (find_shortest_path_cython_optimized g s e) ∧
    ∀ q, ValidPath g s e q →
      (find_shortest_path_cython_optimized g s e).length ≤ q.length := by
  have hfree : freeCell g s = true := reach_free_src h
  have hinv0 := bfsInv_init g s e hfree
  have hN : 1 ≤ gridSize g := gridSize_pos_of_free hfree
  obtain ⟨st', k', hloop, hinv', heV⟩ := bfsLoop_finds g s e (gridSize g + 1)
    ⟨[s], [s], []⟩ 0 hinv0 (by simp; omega) h
  obtain ⟨n, hn⟩ := exists_dist h
  obtain ⟨p0, _, hlen0, hsub0, hnd0, _⟩ :=
    walkBack_ok g s e st' k' hinv' n e heV hn (n + 1) (by omega)
  have hsubV : p0 ⊆ st'.visited := by
    intro w hw
    obtain ⟨m2, _, _, hmV⟩ := hsub0 w hw
    exact hmV
  have hbound : n + 1 ≤ gridSize g := by
    have h1 := (hnd0.subperm hsubV).length_le
    have h2 := bfs_state_size g s e st' k' hinv'
    omega
  obtain ⟨p, hwp, hlen, _, _, hvalid⟩ :=
    walkBack_ok g s e st' k' hinv' n e heV hn (gridSize g + 1) (by omega)
  have hfind : find_shortest_path_cython_optimized g s e = p.reverse := by
    unfold find_shortest_path_cython_optimized
    rw [hloop]
    show (match walkBack st'.pred s (gridSize g + 1) e with
      | none => []
      | some p => p.reverse) = p.reverse
    rw [hwp]
  rw [hfind]
  constructor
  · exact hvalid
  · intro q hq
    rw [List.length_reverse, hlen]
    exact hn.2 q hq

/-- When no route exists (and the start cell is traversable, as it is
for every parsed grid), the modelled search signals "no path found" with
the empty list. -/
theorem find_nil_of_not_reach (g : List (List Nat)) (s e : Coord)
    (hfree : freeCell g s = true) (h : ¬ Reach g s e) :
    find_shortest_path_cython_optimized g s e = [] := by
  have hinv0 := bfsInv_init g s e hfree
  have hnone := bfsLoop_none_of_not_reach g s e (gridSize g + 1)
    ⟨[s], [s], []⟩ 0 hinv0 h
  unfold find_shortest_path_cython_optimized
  rw [hnone]

theorem not_reach_of_find_nil (g : List (List Nat)) (s e : Coord)
    (hnil : find_shortest_path_cython_optimized g s e = []) :
    ¬ Reach g s e := by
  intro hre
  have h1 := (find_correct g s e hre).1
  rw [hnil] at h1
  exact absurd h1.1 (by simp)

/-! ## Parsed grids give traversable markers -/

theorem getD_oob {α} : ∀ (l : List α) (n : Nat) (d : α),
    l.length ≤ n → l.getD n d = d := by
  intro l
  induction l with
  | nil => intro n d _; rfl
  | cons x t ih =>
    intro n d hn
    cases n with
    | zero => simp at hn
    | succ m => exact ih m d (by simpa using hn)

theorem get?_eq_getD {α} : ∀ (l : List α) (n : Nat) (d : α),
    n < l.length → l.get? n = some (l.getD n d) := by
  intro l
  induction l with
  | nil => intro n d hn; simp at hn
  | cons x t ih =>
    intro n d hn
    cases n with
    | zero => rfl
    | succ m => exact ih m d (by simpa using hn)

theorem parse_ok_marker_free {s : List Char} {pm : ParsedMaze} {p : Coord} {ch : Char}
    (hint : pm.intGrid = (splitNl (pyStrip s)).map (fun l => l.map intOfChar))
    (hcell : ((splitNl (pyStrip s)).getD p.1 []).get? p.2 = some ch)
    (hch : intOfChar ch = 0) :
    freeCell pm.intGrid p = true := by
  have hlt : p.1 < (splitNl (pyStrip s)).length := by
    by_contra hc
    push_neg at hc
    rw [getD_oob _ _ _ hc] at hcell
    simp at hcell
  have hrow : pm.intGrid.get? p.1 =
      some (((splitNl (pyStrip s)).getD p.1 []).map intOfChar) := by
    rw [hint, List.get?_map, get?_eq_getD _ p.1 [] hlt]
    rfl
  have hcell2 : cellAt pm.intGrid p = some (intOfChar ch) := by
    unfold cellAt
    rw [hrow]
    show (((splitNl (pyStrip s)).getD p.1 []).map intOfChar).get? p.2 = _
    rw [List.get?_map, hcell]
    rfl
  unfold freeCell
  rw [hcell2, hch]
  rfl

theorem parse_ok_start_free {s : List Char} {pm : ParsedMaze}
    (h : parse_maze_for_cython s = .ok pm) :
    freeCell pm.intGrid pm.startCoord = true := by
  obtain ⟨hne, hchar, hint, st, hscan, hst, hen⟩ := parse_ok_inv h
  have hrect := scanLines_ok_lengths _ _ _ _ _ hscan
  have hval := scanLines_ok_valid _ _ _ _ _ hscan
  rw [scanLines_clean _ _ 0 ⟨none, none⟩ hrect hval] at hscan
  injection hscan with hsteq
  rw [← hsteq] at hst
  have hst2 : lastOr (markerPositionsFrom 'S' 0 (splitNl (pyStrip s))) none =
      some pm.startCoord := hst
  rw [lastOr_none] at hst2
  have hmem := getLast?_some_mem hst2
  obtain ⟨_, hcell⟩ := markerPositionsFrom_sem 'S' _ 0 _ hmem
  rw [Nat.sub_zero] at hcell
  exact parse_ok_marker_free hint hcell (by decide)

theorem parse_ok_end_free {s : List Char} {pm : ParsedMaze}
    (h : parse_maze_for_cython s = .ok pm) :
    freeCell pm.intGrid pm.endCoord = true := by
  obtain ⟨hne, hchar, hint, st, hscan, hst, hen⟩ := parse_ok_inv h
  have hrect := scanLines_ok_lengths _ _ _ _ _ hscan
  have hval := scanLines_ok_valid _ _ _ _ _ hscan
  rw [scanLines_clean _ _ 0 ⟨none, none⟩ hrect hval] at hscan
  injection hscan with hsteq
  rw [← hsteq] at hen
  have hen2 : lastOr (markerPositionsFrom 'E' 0 (splitNl (pyStrip s))) none =
      some pm.endCoord := hen
  rw [lastOr_none] at hen2
  have hmem := getLast?_some_mem hen2
  obtain ⟨_, hcell⟩ := markerPositionsFrom_sem 'E' _ 0 _ hmem
  rw [Nat.sub_zero] at hcell
  exact parse_ok_marker_free hint hcell (by decide)

/-! ## Solver claims -/

/-- Claim C1: on every successfully parsed grid in which a traversable
route from start to end exists, the (spec-modelled) solver returns an
ordered coordinate sequence from start to end inclusive, with
consecutive entries 4-directionally adjacent and every cell traversable,
whose length is minimal among all such routes (hence its edge count is
the graph distance). -/
theorem claim_C1 (maze : List Char) (pm : ParsedMaze)
    (_hparse : parse_maze_for_cython maze = .ok pm)
    (hroute : Reach pm.intGrid pm.startCoord pm.endCoord) :
    ValidPath pm.intGrid pm.startCoord pm.endCoord
      (find_shortest_path_cython_optimized pm.intGrid pm.startCoord pm.endCoord) ∧
    ∀ q, ValidPath pm.intGrid pm.startCoord pm.endCoord q →
      (find_shortest_path_cython_optimized pm.intGrid pm.startCoord
        pm.endCoord).length ≤ q.length :=
  find_correct pm.intGrid pm.startCoord pm.endCoord hroute

/-- Claim C1, witness: the maze `"S E"` with its straight-line route. -/
theorem claim_C1_witness :
    ValidPath pmOpen.intGrid pmOpen.startCoord pmOpen.endCoord
      (find_shortest_path_cython_optimized pmOpen.intGrid pmOpen.startCoord
        pmOpen.endCoord) ∧
    ∀ q, ValidPath pmOpen.intGrid pmOpen.startCoord pmOpen.endCoord q →
      (find_shortest_path_cython_optimized pmOpen.intGrid pmOpen.startCoord
        pmOpen.endCoord).length ≤ q.length :=
  claim_C1 mzOpen pmOpen rfl
    ⟨[(0, 0), (0, 1), (0, 2)],
     rfl, rfl,
     List.chain'_cons.mpr ⟨by decide,
       List.chain'_cons.mpr ⟨by decide, List.chain'_singleton _⟩⟩,
     by decide⟩

/-- Claim C2: when the grid parses but the end is unreachable from the
start, `solve_maze` takes the distinct "no path found" branch (not an
error branch and not an exception), and the written artifact states that
no path was found, includes the formatted elapsed processing time, and
echoes the original maze string; the elapsed time is still returned. -/
theorem claim_C2 (lab : List Char) (pm : ParsedMaze) (t0 t1 : ℚ)
    (fmt : ℚ → List Char)
    (hparse : parse_maze_for_cython lab = .ok pm)
    (hnoroute : ¬ Reach pm.intGrid pm.startCoord pm.endCoord) :
    (solve_maze lab t0 t1 fmt).branch = SolveBranch.noPath ∧
    (solve_maze lab t0 t1 fmt).fileContent =
      noPathMsg ++ tempoHeader ++ fmt ((t1 - t0) * 1000) ++ tempoTail ++ lab ∧
    (solve_maze lab t0 t1 fmt).timeMs = (t1 - t0) * 1000 := by
  have hfree := parse_ok_start_free hparse
  have hnil :=
    find_nil_of_not_reach pm.intGrid pm.startCoord pm.endCoord hfree hnoroute
  have hsolve : solve_maze lab t0 t1 fmt =
      { timeMs := (t1 - t0) * 1000,
        fileContent := noPathContent (fmt ((t1 - t0) * 1000)) lab,
        branch := SolveBranch.noPath } := by
    simp [solve_maze, hparse, hnil]
  rw [hsolve]
  exact ⟨rfl, rfl, rfl⟩

/-- Claim C2, witness: the maze `"S#E"`, whose end cell is walled off. -/
theorem claim_C2_witness :
    (solve_maze mzWall 0 1 fmtZero).branch = SolveBranch.noPath ∧
    (solve_maze mzWall 0 1 fmtZero).fileContent =
      noPathMsg ++ tempoHeader ++ fmtZero ((1 - 0) * 1000) ++ tempoTail ++ mzWall ∧
    (solve_maze mzWall 0 1 fmtZero).timeMs = (1 - 0) * 1000 :=
  claim_C2 mzWall pmWall 0 1 fmtZero rfl
    (not_reach_of_find_nil pmWall.intGrid pmWall.startCoord pmWall.endCoord rfl)

end Maze
